import Mathlib

/-!
Verification of the declaration-synthesis pipeline of
`pypredefgen.py` / `pypredefgen_gimp.py` (PyDev predefined-completion
generator).  Each Python function relevant to the checked claims is embedded
as an executable Lean definition; the theorems at the end of the file settle
the claims against these definitions.  Doc comments on the definitions point
to the source lines they embed.
-/

namespace PypredefGen

/-- Mirror of the `ast.arguments` record as built by
`get_ast_arguments_for_routine` in `pypredefgen.py` (lines 289-304):
positional parameter names, optional variadic name (`argspec.varargs`),
optional keyword-catch-all name (`argspec.keywords`), and the list of names
used for default values. -/
structure RArgs where
  args : List String
  vararg : Option String
  kwarg : Option String
  defaults : List String
deriving DecidableEq

/-- Statements occurring in a synthesized class body.  A `functionDef`
carries its docstring directly: in the source a `FunctionDef` body is always
`[Pass]` or `[Expr(doc), Pass]` (built at lines 259-276 and 307-310) and
`ast.get_docstring` reads exactly that optional leading expression, so the
`docstring` field renders the only body shapes the program creates.
`otherNode` stands for any other statement kind (e.g. a nested `ClassDef` or
an `Import`): `_remove_redundant_class_member_node` (lines 407-415) matches
only `FunctionDef` and `Assign` and leaves every other kind untouched, and
the cosmetic pass of claim C6 likewise only tests `isinstance(_, ast.Assign)`
and `isinstance(_, ast.FunctionDef)`. -/
inductive PyStmt where
  | functionDef (name : String) (args : RArgs) (docstring : Option String)
  | assign (target : String) (valueTypeName : String)
  | exprStr (s : String)
  | passStmt
  | otherNode (tag : Nat)
deriving DecidableEq

/-- Top-level module-body nodes: plain statements, `Import` nodes, and class
declarations (`ast.ClassDef` with its own body). -/
inductive PyModNode where
  | stmt (s : PyStmt)
  | importNames (names : List String)
  | classNode (name : String) (bases : List String) (body : List PyStmt)
deriving DecidableEq

/-- Accessor for the docstring compared by `_routine_docstrings_equal`
(`pypredefgen.py` lines 451-452, `ast.get_docstring` on a `FunctionDef`). -/
def routineDocstring : PyStmt → Option String
  | PyStmt.functionDef _ _ d => d
  | _ => none

/-- Pointwise equality of two name lists under Python `zip` semantics:
`zip` truncates to the shorter list, so lists of different lengths compare
componentwise only on their common prefix.  This is exactly the
`all(...for ... in zip(...))` pattern of `_routine_signatures_equal`
(`pypredefgen.py` lines 437-448). -/
def zip_all_eq (xs ys : List String) : Bool :=
  (xs.zip ys).all fun p => p.1 == p.2

/-- Embeds `_routine_signatures_equal` (`pypredefgen.py` lines 437-448):
zipped comparison of positional parameter names, equality of the variadic
and keyword-catch-all markers, and zipped comparison of default names. -/
def routine_signatures_equal (a1 a2 : RArgs) : Bool :=
  zip_all_eq a1.args a2.args && a1.vararg == a2.vararg
    && a1.kwarg == a2.kwarg && zip_all_eq a1.defaults a2.defaults

/-- Embeds `_routine_nodes_equal` (`pypredefgen.py` lines 430-434): same
name, equal signatures, equal docstrings. -/
def routine_nodes_equal : PyStmt → PyStmt → Bool
  | PyStmt.functionDef n1 a1 d1, PyStmt.functionDef n2 a2 d2 =>
      n1 == n2 && routine_signatures_equal a1 a2 && d1 == d2
  | _, _ => false

/-- Embeds `_assign_nodes_equal` / `_assign_targets_equal` /
`_assign_values_equal` (`pypredefgen.py` lines 455-475).  Every `Assign`
node the walker produces has exactly one `Name` target, and the value
comparison reduces to equality of the two members' qualified type-name
strings, which the `valueTypeName` field stores. -/
def assign_nodes_equal : PyStmt → PyStmt → Bool
  | PyStmt.assign t1 v1, PyStmt.assign t2 v2 => t1 == t2 && v1 == v2
  | _, _ => false

/-- Test for `isinstance(node, ast.FunctionDef)`. -/
def isFunctionDef : PyStmt → Bool
  | PyStmt.functionDef _ _ _ => true
  | _ => false

/-- Test for `isinstance(node, ast.Assign)`. -/
def isAssign : PyStmt → Bool
  | PyStmt.assign _ _ => true
  | _ => false

/-- Embeds `_remove_ast_node` (`pypredefgen.py` lines 478-486): look up the
node's first occurrence in the parent body and delete it; a `ValueError`
from `list.index` (node absent) is swallowed and the body left unchanged.
`List.erase` has exactly this behaviour: it removes the first occurrence and
is the identity when the node is absent. -/
def remove_ast_node (node : PyStmt) (body : List PyStmt) : List PyStmt :=
  body.erase node

/-- Embeds `_remove_ast_node` of the older generator
(`pypredef_generator.py` lines 341-342):
`del parent_node.body[parent_node.body.index(node)]` with no exception
handler.  On a present node it deletes the first occurrence; on an absent
node `list.index` raises `ValueError`, which propagates — the caller
`remove_redundant_methods_from_subclasses` (line 267) has no handler
either. -/
def remove_ast_node_v0 (node : PyStmt) (body : List PyStmt) :
    Except String (List PyStmt) :=
  if node ∈ body then Except.ok (body.erase node) else Except.error "ValueError"

/-- The removal condition applied by `_remove_redundant_class_member_node`
and `_remove_node` (`pypredefgen.py` lines 407-427) to one member node `m`
against one parent-class member list: a `FunctionDef` is removed when some
`FunctionDef` of the parent satisfies `_routine_nodes_equal`, an `Assign`
when some `Assign` of the parent satisfies `_assign_nodes_equal`, and every
other node kind is never removed. -/
def should_remove_against (parentNodes : List PyStmt) (m : PyStmt) : Bool :=
  if isFunctionDef m then
    parentNodes.any fun n => isFunctionDef n && routine_nodes_equal m n
  else if isAssign m then
    parentNodes.any fun n => isAssign n && assign_nodes_equal m n
  else false

/-- One iteration of the inner loop of
`remove_redundant_members_from_subclasses` (`pypredefgen.py` lines 367-369)
for a single parent class: iterate over the cached snapshot of the class's
original member list (`list(class_member_nodes)`), removing from the current
body every snapshot node that matches a parent member. -/
def eliminate_pass (snapshot parentNodes body : List PyStmt) : List PyStmt :=
  snapshot.foldl
    (fun b m => if should_remove_against parentNodes m then remove_ast_node m b else b)
    body

/-- The whole treatment one class receives inside
`remove_redundant_members_from_subclasses` (`pypredefgen.py` lines 352-371):
the snapshot of its member nodes is taken once (`_get_class_member_nodes`,
lines 398-404, caches `list(class_node.body)` before anything is removed),
then for each immediate base class in order the snapshot is replayed against
that parent's member list. -/
def eliminate_for_class (body : List PyStmt) (parentSnapshots : List (List PyStmt)) :
    List PyStmt :=
  parentSnapshots.foldl (fun b ps => eliminate_pass body ps b) body

/-- A class declared in the processed namespace: `cid` models the identity
of the live class object (the key of `class_element_map`), `bases` the
identities of `class_.__bases__` in order, and `body` the member-node list
of its synthesized `ClassDef`. -/
structure PyClassDecl where
  cid : Nat
  bases : List Nat
  body : List PyStmt
deriving DecidableEq

/-- Member-node list used for a parent class (`pypredefgen.py` lines
357-365): the parent's own `ClassDef` body if the parent is declared in the
namespace, else the body synthesized on demand by
`_get_ast_node_for_external_class` (lines 383-395), which the oracle
`extBody` supplies.  In both cases the list handed to the comparison is the
parent's original (pre-elimination) body: `_get_class_member_nodes` caches
`list(class_node.body)` the first time a class is seen, which for a declared
parent happens at the start of its own visit, before any of its members are
removed. -/
def parent_snapshot (classes : List PyClassDecl) (extBody : Nat → List PyStmt)
    (p : Nat) : List PyStmt :=
  match classes.find? (fun c => c.cid == p) with
  | some c => c.body
  | none => extBody p

/-- The member list a declared class ends up with after
`remove_redundant_members_from_subclasses`. -/
def new_class_body (classes : List PyClassDecl) (extBody : Nat → List PyStmt)
    (c : PyClassDecl) : List PyStmt :=
  eliminate_for_class c.body (c.bases.map (parent_snapshot classes extBody))

/-- Embeds `remove_redundant_members_from_subclasses` (`pypredefgen.py`
lines 339-371).  The source walks the classes in reverse-linearized
inheritance order with a `visited_classes` set, so every declared class is
processed exactly once; since all comparisons read cached original
snapshots (see `parent_snapshot`) and a class's removals touch only its own
`ClassDef` body, the net effect on each declared class is independent of the
visit order, and the whole pass is the per-class transformation mapped over
the namespace's classes. -/
def remove_redundant_members_from_subclasses (classes : List PyClassDecl)
    (extBody : Nat → List PyStmt) : List PyClassDecl :=
  classes.map fun c => { c with body := new_class_body classes extBody c }

/-- Result of `inspect.getargspec`, when it succeeds: `args`, `varargs`,
`keywords`, `defaults`.  `get_ast_arguments_for_routine` receives `none`
when reflection raises `TypeError` (opaque, natively implemented routine). -/
structure ArgSpec where
  args : List String
  varargs : Option String
  keywords : Option String
  defaults : List String
deriving DecidableEq

/-- Embeds `get_ast_arguments_for_routine` (`pypredefgen.py` lines 289-304):
start from `ast.arguments(args=[], vararg=None, kwarg=None, defaults=[])`;
if `inspect.getargspec` raises `TypeError` (modelled by `none`), return that
empty record unchanged; otherwise copy the argspec fields (the `if
argspec.args:` / `if argspec.defaults:` guards skip the copy for empty
lists, which leaves the same empty value). -/
def get_ast_arguments_for_routine (argspec : Option ArgSpec) : RArgs :=
  match argspec with
  | none => { args := [], vararg := none, kwarg := none, defaults := [] }
  | some s =>
      { args := if s.args.isEmpty then [] else s.args
        vararg := s.varargs
        kwarg := s.keywords
        defaults := if s.defaults.isEmpty then [] else s.defaults }

/-- Python's `str.lstrip("_")`: drop every leading underscore. -/
def lstripUnderscores (s : String) : String :=
  String.mk (s.data.dropWhile fun ch => ch == '_')

/-- Character-level worker for Python's `str.split(".")`: `cur` is the
current component accumulated in reverse. -/
def splitDotAux : List Char → List Char → List (List Char)
  | [], cur => [cur.reverse]
  | c :: rest, cur =>
      if c = '.' then cur.reverse :: splitDotAux rest []
      else splitDotAux rest (c :: cur)

/-- Python's `module_name.split(".")` (splits at every dot, keeping empty
components). -/
def splitOnDot (s : String) : List String :=
  (splitDotAux s.data []).map String.mk

/-- Python's `".".join(components)`. -/
def joinDot : List String → String
  | [] => ""
  | [c] => c
  | c :: rest => c ++ "." ++ joinDot rest

/-- Python's `s.startswith("_")`. -/
def headIsUnderscore (s : String) : Bool :=
  match s.data with
  | c :: _ => c == '_'
  | [] => false

/-- Python's `s[1:]`. -/
def strTail (s : String) : String :=
  String.mk (s.data.drop 1)

/-- Embeds `_get_module_name_without_internal_component` (`pypredefgen.py`
lines 249-256): split the dotted name; if there are at least two components
and the first equals the second with its leading underscores stripped, drop
the second component. -/
def get_module_name_without_internal_component (module_name : String) : String :=
  match splitOnDot module_name with
  | c0 :: c1 :: rest =>
      if c0 = lstripUnderscores c1 then joinDot (c0 :: rest)
      else module_name
  | _ => module_name

/-- Embeds `_module_names_equal` (`pypredefgen.py` lines 240-246). -/
def module_names_equal (m1 m2 : String) : Bool :=
  m1 == m2
    || (headIsUnderscore m1 && strTail m1 == m2)
    || get_module_name_without_internal_component m1 == m2
    || (headIsUnderscore m2 && m1 == strTail m2)
    || m1 == get_module_name_without_internal_component m2

/-- Embeds `get_full_type_name` (`pypredefgen.py` lines 201-214).  The
class is represented by its `__name__` and by the `__name__` of
`inspect.getmodule(type_)` (`none` when the module cannot be determined or
lacks `__name__`); `module_rootName` is the `__name__` of the reference
namespace (`none` when the caller passes `module_root=None`). -/
def get_full_type_name (typeName : String) (typeModuleName : Option String)
    (module_rootName : Option String) : String :=
  match typeModuleName with
  | some mn =>
      if mn ≠ "__builtin__" then
        match module_rootName with
        | some rn =>
            if module_names_equal mn rn then typeName
            else get_module_name_without_internal_component mn ++ "." ++ typeName
        | none => get_module_name_without_internal_component mn ++ "." ++ typeName
      else typeName
  | none => typeName

/-- State of a `GimpProgress` object (`pypredefgen_gimp.py` lines 109-117):
the declared total and the finished count. -/
structure GimpProgress where
  num_total_tasks : Nat
  num_finished_tasks : Nat
deriving DecidableEq

/-- Embeds `GimpProgress.update` (`pypredefgen_gimp.py` lines 122-128): if
the new finished count would exceed the total, raise `ValueError` before
touching the counter or reporting progress; otherwise increment the counter
and report `finished / total` (true division, from
`from __future__ import division`) to `gimp.progress_update`.  The `ok`
result carries the new state and the reported fraction. -/
def GimpProgress.update (p : GimpProgress) (num_tasks : Nat) :
    Except String (GimpProgress × ℚ) :=
  if p.num_finished_tasks + num_tasks > p.num_total_tasks then
    Except.error "number of finished tasks exceeds the number of total tasks"
  else
    let finished := p.num_finished_tasks + num_tasks
    Except.ok ({ num_total_tasks := p.num_total_tasks, num_finished_tasks := finished },
      (finished : ℚ) / (p.num_total_tasks : ℚ))

/-- Node-reference state of one `Element` (`pypredefgen.py` lines 31-70):
the optional AST node it references (node identity modelled by `Nat`) and
how many times `set_node` has been invoked on it.  An `Element` created by
`insert_ast_node` (lines 114-115) starts with no node and zero calls. -/
structure ElementState where
  node : Option Nat
  setCount : Nat
deriving DecidableEq

/-- Embeds `Element.set_node` (`pypredefgen.py` lines 62-70): store the
node (also registering it in the node-element maps, which does not affect
the element's own state) and record that one more call happened. -/
def Element.set_node (e : ElementState) (n : Nat) : ElementState :=
  { node := some n, setCount := e.setCount + 1 }

/-- Embeds the effect of `get_ast_node_for_class` (`pypredefgen.py` lines
179-198) on the class's own element: the function builds a fresh `ClassDef`
node, immediately calls `class_element.set_node(class_node)` (line 188), and
returns that same node.  The recursion into the class members (line 196)
creates and sets other elements and is irrelevant to this element's state. -/
def get_ast_node_for_class_on_element (e : ElementState) (classNode : Nat) :
    ElementState × Nat :=
  (Element.set_node e classNode, classNode)

/-- Embeds the class branch of `insert_ast_node` (`pypredefgen.py` lines
120-126): `child_element.set_node(get_ast_node_for_class(child_element,
...))` — the callee has already set the node, and the caller sets the very
node the callee returned a second time. -/
def insert_ast_node_class_branch (e : ElementState) (classNode : Nat) : ElementState :=
  let r := get_ast_node_for_class_on_element e classNode
  Element.set_node r.1 r.2

/-- Classification of a live member by the `inspect` probes used in
`insert_ast_node` (`pypredefgen.py` lines 117, 120, 132): module, class,
routine, or plain value. -/
inductive MemberKind where
  | module
  | cls
  | routine
  | value
deriving DecidableEq

/-- A member discovered by `dir()` on the walked object: the name it was
found under, its classification, whether its value is `None`, and the
`__name__` / owning-module name of its runtime type (`object_.__class__`),
as read by `get_full_type_name_from_object` (`pypredefgen.py` lines
217-223). -/
structure LiveMember where
  name : String
  kind : MemberKind
  isNone : Bool
  runtimeTypeName : String
  runtimeTypeModule : Option String
deriving DecidableEq

/-- Embeds `_can_inspect_class_element` (`pypredefgen.py` lines 145-146). -/
def can_inspect_class_element (m : LiveMember) : Bool :=
  m.name ≠ "__class__"

/-- Embeds `get_ast_node_for_assignment_of_type_to_name` (`pypredefgen.py`
lines 279-286): `<name> = <qualified runtime-type name>`, or the literal
`None` when the member's value is absent. -/
def get_ast_node_for_assignment_of_type_to_name (moduleName : String)
    (m : LiveMember) : PyStmt :=
  PyStmt.assign m.name
    (if m.isNone then "None"
     else get_full_type_name m.runtimeTypeName m.runtimeTypeModule (some moduleName))

/-- Embeds the dispatch of `insert_ast_node` (`pypredefgen.py` lines
110-143) and its effect on the containing element's body: a module member
prepends an `Import`; a class member whose name passes
`_can_inspect_class_element` appends a `ClassDef` (built by the abstracted
`classBuilder`, together with its docstring and foreign-base imports, none
of which matter for the claims proved here); a routine appends a
`FunctionDef` (abstracted `routineBuilder`); everything else — including a
class member named `"__class__"` — appends the type-assignment node. -/
def insert_ast_node (classBuilder routineBuilder : LiveMember → PyModNode)
    (importBuilder : LiveMember → List String) (moduleName : String)
    (m : LiveMember) (body : List PyModNode) : List PyModNode :=
  if m.kind = MemberKind.module then
    PyModNode.importNames (importBuilder m) :: body
  else if m.kind = MemberKind.cls ∧ can_inspect_class_element m then
    body ++ [classBuilder m]
  else if m.kind = MemberKind.routine then
    body ++ [routineBuilder m]
  else
    body ++ [PyModNode.stmt (get_ast_node_for_assignment_of_type_to_name moduleName m)]

/-- Python's `list.insert(i, a)`: insert before position `i`, clamping to
append when `i` is at least the length. -/
def pyInsert {α : Type} (l : List α) (i : Nat) (a : α) : List α :=
  l.take i ++ a :: l.drop i

/-- Sequential `del body[i]` over a list of indices, as done by the
deletion loops of the cosmetic passes. -/
def del_idxs {α : Type} (body : List α) (idxs : List Nat) : List α :=
  idxs.foldl (fun b i => b.eraseIdx i) body

/-- The `class_variable_nodes_and_indices` list of
`move_class_level_variables_before_methods` (`pypredefgen.py` lines
582-584): each `Assign` node of the class body paired with its index. -/
def assign_nodes_and_indices (body : List PyStmt) : List (PyStmt × Nat) :=
  (body.enum.filter fun p => isAssign p.2).map fun p => (p.2, p.1)

/-- The per-class-body transformation of
`move_class_level_variables_before_methods` (`pypredefgen.py` lines
582-595): delete the `Assign` nodes at their recorded indices (highest
first), find the index of the first `FunctionDef` in what remains
(defaulting to the remaining length, i.e. `max(len(body), 0)`), then insert
the removed assignments back at that index, iterating them in reverse so
they end up in their original relative order. -/
def move_vars_in_class_body (body : List PyStmt) : List PyStmt :=
  let vars := assign_nodes_and_indices body
  let b1 := del_idxs body ((vars.map Prod.snd).reverse)
  let k := b1.findIdx isFunctionDef
  ((vars.map Prod.fst).reverse).foldl (fun b n => pyInsert b k n) b1

/-- Embeds `move_class_level_variables_before_methods` (`pypredefgen.py`
lines 579-595): apply the per-body transformation to every top-level
`ClassDef` of the module body, leaving every other node unchanged. -/
def move_class_level_variables_before_methods (moduleBody : List PyModNode) :
    List PyModNode :=
  moduleBody.map fun n =>
    match n with
    | PyModNode.classNode nm bs body =>
        PyModNode.classNode nm bs (move_vars_in_class_body body)
    | other => other

/-- Declaration tree processed by `remove_duplicate_imports`: a faithful
nested rendering of the AST node kinds the program produces, with
`ast.Import` carrying its list of dotted alias names. -/
inductive PyTree where
  | importT (names : List String)
  | classT (name : String) (bases : List String) (body : List PyTree)
  | funcT (name : String) (args : RArgs) (body : List PyTree)
  | assignT (target : String) (valueTypeName : String)
  | exprT (s : String)
  | passT

/-- Embeds the alias loop of `_ImportDeduplicator.visit_Import`
(`pypredefgen.py` lines 546-551): iterate the aliases by descending index
(`reversed(list(enumerate(...)))`); a name not yet seen is kept and added to
the seen set, a name already seen is deleted.  Returns the surviving alias
list together with the grown seen set. -/
def dedupAliases (seen : List String) : List String → List String × List String
  | [] => ([], seen)
  | n :: rest =>
      match dedupAliases seen rest with
      | (ns2, seen2) => if n ∈ seen2 then (ns2, seen2) else (n :: ns2, n :: seen2)

/-- Embeds the depth-first traversal of
`_ImportDeduplicator().visit(module_node)` (`pypredefgen.py` lines 540-558):
an `ast.NodeTransformer` visits body lists in order, recursing into
`ClassDef` and `FunctionDef` bodies; `visit_Import` rewrites the alias list
and returns `None` (removing the node) when no alias survives.  The seen
set belongs to the single transformer instance and threads through the
whole traversal. -/
def dedupList (seen : List String) : List PyTree → List PyTree × List String
  | [] => ([], seen)
  | PyTree.importT ns :: rest =>
      match dedupAliases seen ns with
      | (ns2, seen2) =>
        match dedupList seen2 rest with
        | (rest2, seen3) =>
          (if ns2.isEmpty then rest2 else PyTree.importT ns2 :: rest2, seen3)
  | PyTree.classT n bs body :: rest =>
      match dedupList seen body with
      | (body2, seen2) =>
        match dedupList seen2 rest with
        | (rest2, seen3) => (PyTree.classT n bs body2 :: rest2, seen3)
  | PyTree.funcT n a body :: rest =>
      match dedupList seen body with
      | (body2, seen2) =>
        match dedupList seen2 rest with
        | (rest2, seen3) => (PyTree.funcT n a body2 :: rest2, seen3)
  | x :: rest =>
      match dedupList seen rest with
      | (rest2, seen2) => (x :: rest2, seen2)

/-- Embeds `remove_duplicate_imports` (`pypredefgen.py` lines 540-558):
each call creates a fresh `_ImportDeduplicator` class object, so the seen
set starts empty for every run. -/
def remove_duplicate_imports (body : List PyTree) : List PyTree :=
  (dedupList [] body).1

/-- Specification-side description of which aliases of one `Import` node
survive `dedupAliases`: a name survives iff it is not in the incoming seen
set and does not occur again later in the alias list (so of several equal
aliases the last survives). -/
def dedupKeep (seen : List String) : List String → List String
  | [] => []
  | n :: rest =>
      if n ∈ seen ∨ n ∈ rest then dedupKeep seen rest
      else n :: dedupKeep seen rest

/-- The dotted names mentioned by the `Import` nodes of a tree, collected
in the (reversed) order in which the deduplicator's seen set accumulates
them. -/
def collectNames : List PyTree → List String
  | [] => []
  | PyTree.importT ns :: rest => collectNames rest ++ ns
  | PyTree.classT _ _ body :: rest => collectNames rest ++ collectNames body
  | PyTree.funcT _ _ body :: rest => collectNames rest ++ collectNames body
  | _ :: rest => collectNames rest

/-- A node of the module body processed by `sort_classes_by_hierarchy`:
either the `ClassDef` of a declared class, identified by the identity `cid`
of its live class object, or any other node.  Only identity matters to the
sorting pass, which never looks inside the nodes. -/
inductive BodyItem where
  | classItem (cid : Nat)
  | otherItem (tag : Nat)
deriving DecidableEq

/-- Test for `isinstance(node, ast.ClassDef)` on a module-body node. -/
def isClassItem : BodyItem → Bool
  | BodyItem.classItem _ => true
  | _ => false

/-- The live class objects behind the module body's `ClassDef` nodes, in
body order: the keys of `class_element_map` (`pypredefgen.py` lines
374-380, 492-496). -/
def classCids (body : List BodyItem) : List Nat :=
  body.filterMap fun b =>
    match b with
    | BodyItem.classItem c => some c
    | _ => none

/-- `_move_ordered_dict_element_to_end` combined with the `else` branch of
the collection loop (`pypredefgen.py` lines 509-512, 525-528): a class
already collected is moved to the end, a new one is appended; both are
`erase`-then-append on a duplicate-free list. -/
def moveToEnd (l : List Nat) (x : Nat) : List Nat :=
  l.erase x ++ [x]

/-- Processing of one linearized inheritance sequence by the collection
loop of `sort_classes_by_hierarchy` (`pypredefgen.py` lines 505-512): walk
the sequence from most derived to least derived and collect every class
that is declared in the namespace. -/
def processMro (declared : List Nat) (l : List Nat) (m : List Nat) : List Nat :=
  m.foldl (fun acc c => if c ∈ declared then moveToEnd acc c else acc) l

/-- The reordered class sequence produced by `sort_classes_by_hierarchy`
(`pypredefgen.py` lines 498-514): fold the declared classes' linearized
inheritance sequences in reverse declaration order into one ordering, then
reverse the result (`_reverse_ordered_dict`). -/
def newClassOrder (body : List BodyItem) (mro : Nat → List Nat) : List Nat :=
  ((((classCids body).map mro).reverse).foldl (processMro (classCids body)) []).reverse

/-- The original body indices of the `ClassDef` nodes
(`class_nodes_and_indices`, `pypredefgen.py` lines 498-500). -/
def classIndices (body : List BodyItem) : List Nat :=
  (body.enum.filter fun p => isClassItem p.2).map Prod.fst

/-- The removal loop of `sort_classes_by_hierarchy` (`pypredefgen.py` lines
516-517): `_remove_ast_node` for each declared class's node, i.e. erase its
first occurrence from the body. -/
def strip_class_nodes (body : List BodyItem) : List BodyItem :=
  (classCids body).foldl (fun b c => b.erase (BodyItem.classItem c)) body

/-- Embeds `sort_classes_by_hierarchy` (`pypredefgen.py` lines 492-522):
remove every declared class node from the module body, then reinsert the
reordered class nodes with `list.insert` at the original class slots,
pairing original slots with reordered classes by position (`zip`). -/
def sort_classes_by_hierarchy (body : List BodyItem) (mro : Nat → List Nat) :
    List BodyItem :=
  ((classIndices body).zip (newClassOrder body mro)).foldl
    (fun b p => pyInsert b p.1 (BodyItem.classItem p.2))
    (strip_class_nodes body)

end PypredefGen

namespace PypredefGen

open List

/-! ## Claim C4: removing an absent node is a no-op -/

/-- C4 counterexample.  The claim covers both cited implementations of
`_remove_ast_node`, but the one in `pypredef_generator.py` (lines 341-342)
deletes with `del parent_node.body[parent_node.body.index(node)]` and has
no exception handler: asked to remove a node that is not in the body, it
raises `ValueError` instead of being a no-op, refuting "it does not raise
an error" as stated. -/
theorem c4_counterexample :
    PyStmt.passStmt ∉ [PyStmt.exprStr "doc", PyStmt.assign "x" "int"] ∧
      remove_ast_node_v0 PyStmt.passStmt
          [PyStmt.exprStr "doc", PyStmt.assign "x" "int"] =
        Except.error "ValueError" :=
  ⟨by decide, rfl⟩

/-- C4 amended.  Asking the redundancy eliminator of `pypredefgen.py` to
remove a member node that is no longer present in its class body (for
example because two ancestors independently define the same duplicate and
it was already removed) is a no-op: its `_remove_ast_node` swallows the
`ValueError` from `list.index` and leaves the class body unchanged.  The
older eliminator in `pypredef_generator.py`, whose `_remove_ast_node` has
no handler, instead raises `ValueError` on an absent node. -/
theorem c4_remove_absent_node_spec (node : PyStmt) (body : List PyStmt)
    (h : node ∉ body) :
    remove_ast_node node body = body ∧
      remove_ast_node_v0 node body = Except.error "ValueError" :=
  ⟨List.erase_of_not_mem h, by simp [remove_ast_node_v0, h]⟩

theorem c4_remove_absent_node_spec_witness :
    remove_ast_node PyStmt.passStmt [PyStmt.exprStr "doc", PyStmt.assign "x" "int"] =
        [PyStmt.exprStr "doc", PyStmt.assign "x" "int"] ∧
      remove_ast_node_v0 PyStmt.passStmt
          [PyStmt.exprStr "doc", PyStmt.assign "x" "int"] =
        Except.error "ValueError" :=
  c4_remove_absent_node_spec _ _ (by decide)

/-! ## Claim C5: opaque-routine fallback -/

/-- C5.  For a routine whose signature cannot be extracted by reflection
(`inspect.getargspec` raises `TypeError`, modelled by the `none` argspec),
`get_ast_arguments_for_routine` returns an arguments record with an empty
parameter list, no variadic marker, no keyword-catch-all marker and no
defaults; the function is total, so no error is ever raised. -/
theorem c5_opaque_routine_fallback :
    get_ast_arguments_for_routine none =
      { args := [], vararg := none, kwarg := none, defaults := [] } :=
  rfl

/-! ## Claim C9: how often `set_node` runs for a class element -/

/-- C9 counterexample.  For a class member, `insert_ast_node` calls
`child_element.set_node(get_ast_node_for_class(child_element, ...))` while
`get_ast_node_for_class` itself already calls
`class_element.set_node(class_node)`, so the node-setting operation runs
twice on the class's element, refuting the claim that it is performed
exactly once per Element. -/
theorem c9_counterexample :
    (insert_ast_node_class_branch { node := none, setCount := 0 } 5).setCount = 2 ∧
      (insert_ast_node_class_branch { node := none, setCount := 0 } 5).setCount ≠ 1 :=
  ⟨rfl, by decide⟩

/-- C9 amended.  Processing a class member invokes `set_node` twice on the
class's element — once inside `get_ast_node_for_class` and once in
`insert_ast_node` — but both calls pass the very same node, so the element
still references exactly one declaration node, which never changes once
set: after the inner call the node is already `n`, and the outer call
stores `n` again. -/
theorem c9_set_node_spec (e : ElementState) (n : Nat) :
    insert_ast_node_class_branch e n =
        { node := some n, setCount := e.setCount + 2 } ∧
      (get_ast_node_for_class_on_element e n).1.node = some n :=
  ⟨rfl, rfl⟩

/-! ## Claim C10: members named `"__class__"` whose value is a class -/

/-- C10.  A member discovered under the reserved name `"__class__"` whose
value is a class (hence neither a module nor a routine) fails
`_can_inspect_class_element`, so the walker falls through to the final
branch and appends an `Assign` node whose value is the member's qualified
runtime-type name — the member is neither skipped nor emitted as a
`ClassDef`. -/
theorem c10_class_attribute_assignment (cb rb : LiveMember → PyModNode)
    (ib : LiveMember → List String) (moduleName : String) (m : LiveMember)
    (body : List PyModNode) (hk : m.kind = MemberKind.cls)
    (hn : m.name = "__class__") (hv : m.isNone = false) :
    insert_ast_node cb rb ib moduleName m body =
      body ++ [PyModNode.stmt (PyStmt.assign "__class__"
        (get_full_type_name m.runtimeTypeName m.runtimeTypeModule (some moduleName)))] := by
  simp [insert_ast_node, hk, hn, can_inspect_class_element,
    get_ast_node_for_assignment_of_type_to_name, hv]

theorem c10_class_attribute_assignment_witness :
    insert_ast_node (fun _ => PyModNode.stmt PyStmt.passStmt)
        (fun _ => PyModNode.stmt PyStmt.passStmt) (fun _ => []) "gimp"
        { name := "__class__", kind := MemberKind.cls, isNone := false,
          runtimeTypeName := "classobj", runtimeTypeModule := none } [] =
      [PyModNode.stmt (PyStmt.assign "__class__" "classobj")] := by
  have h := c10_class_attribute_assignment (fun _ => PyModNode.stmt PyStmt.passStmt)
    (fun _ => PyModNode.stmt PyStmt.passStmt) (fun _ => []) "gimp"
    { name := "__class__", kind := MemberKind.cls, isNone := false,
      runtimeTypeName := "classobj", runtimeTypeModule := none } [] rfl rfl rfl
  simpa [get_full_type_name] using h

/-! ## Claim C7: qualified type names -/

/-- C7 counterexample.  A class owned by the builtin namespace is always
referred to by its bare name, even when the reference namespace differs:
`get_full_type_name` for a builtin-owned class and reference namespace
`"mymodule"` returns `"int"`, not the namespace-qualified name the claim
requires for the not-equal case (the two namespaces are not equal under
`_module_names_equal`). -/
theorem c7_counterexample :
    module_names_equal "__builtin__" "mymodule" = false ∧
      get_full_type_name "int" (some "__builtin__") (some "mymodule") = "int" ∧
      get_full_type_name "int" (some "__builtin__") (some "mymodule") ≠
        get_module_name_without_internal_component "__builtin__" ++ "." ++ "int" :=
  ⟨rfl, rfl, by decide⟩

/-- C7 amended.  `get_full_type_name` returns the bare class name when the
class's owning namespace cannot be determined or is the builtin namespace
`"__builtin__"`, and otherwise returns the bare name exactly when the
owning namespace's name equals the reference namespace's name under the
normalized-name equivalence `_module_names_equal` (which subsumes plain
equality), else the owning namespace's normalized dotted name, a dot, and
the class name. -/
theorem c7_qualified_name_spec (typeName root : String) (tm : Option String) :
    (∀ mn, tm = some mn → mn ≠ "__builtin__" →
      (module_names_equal mn root = true →
        get_full_type_name typeName tm (some root) = typeName) ∧
      (module_names_equal mn root = false →
        get_full_type_name typeName tm (some root) =
          get_module_name_without_internal_component mn ++ "." ++ typeName)) ∧
    ((tm = none ∨ tm = some "__builtin__") →
      get_full_type_name typeName tm (some root) = typeName) := by
  constructor
  · rintro mn rfl hb
    constructor
    · intro he
      simp [get_full_type_name, hb, he]
    · intro he
      simp [get_full_type_name, hb, he]
  · rintro (rfl | rfl) <;> simp [get_full_type_name]

theorem c7_qualified_name_spec_witness :
    get_full_type_name "RGB" (some "gimpcolor") (some "gimp") = "gimpcolor.RGB" ∧
      get_full_type_name "Layer" (some "gimp") (some "gimp") = "Layer" ∧
      get_full_type_name "int" (some "__builtin__") (some "gimp") = "int" := by
  have h1 := (c7_qualified_name_spec "RGB" "gimp" (some "gimpcolor")).1
    "gimpcolor" rfl (by decide)
  have h2 := (c7_qualified_name_spec "Layer" "gimp" (some "gimp")).1
    "gimp" rfl (by decide)
  have h3 := (c7_qualified_name_spec "int" "gimp" (some "__builtin__")).2
    (Or.inr rfl)
  refine ⟨?_, h2.1 (by decide), h3⟩
  have h4 := h1.2 (by decide)
  simpa [get_module_name_without_internal_component] using h4

/-! ## Claim C8: progress-update bookkeeping -/

/-- C8.  `GimpProgress.update` with `k` more tasks raises `ValueError`
exactly when the new finished count would exceed the declared total, and
the check precedes any state change, so an erroneous call leaves the
finished count and the reported progress untouched; otherwise the finished
count is incremented by `k` and the fraction `finished / total` is
reported. -/
theorem c8_progress_update_spec (p : GimpProgress) (k : Nat) :
    (p.num_finished_tasks + k > p.num_total_tasks →
      GimpProgress.update p k =
        Except.error "number of finished tasks exceeds the number of total tasks") ∧
    (p.num_finished_tasks + k ≤ p.num_total_tasks →
      GimpProgress.update p k =
        Except.ok ({ num_total_tasks := p.num_total_tasks,
                     num_finished_tasks := p.num_finished_tasks + k },
          ((p.num_finished_tasks + k : Nat) : ℚ) / (p.num_total_tasks : ℚ))) := by
  constructor
  · intro h
    simp [GimpProgress.update, h]
  · intro h
    simp [GimpProgress.update, Nat.not_lt.mpr h]

theorem c8_progress_update_spec_witness :
    GimpProgress.update { num_total_tasks := 2, num_finished_tasks := 1 } 2 =
        Except.error "number of finished tasks exceeds the number of total tasks" ∧
      GimpProgress.update { num_total_tasks := 2, num_finished_tasks := 1 } 1 =
        Except.ok ({ num_total_tasks := 2, num_finished_tasks := 2 }, (2 : ℚ) / 2) := by
  constructor
  · exact (c8_progress_update_spec { num_total_tasks := 2, num_finished_tasks := 1 } 2).1
      (by decide)
  · have h := (c8_progress_update_spec
      { num_total_tasks := 2, num_finished_tasks := 1 } 1).2 (by decide)
    simpa using h

end PypredefGen

namespace PypredefGen

open List

/-! ## Claim C1: redundancy elimination for methods -/

/-- Erasing an element rejected by a filter does not change the filter's
result. -/
theorem filter_erase_of_neg {p : PyStmt → Bool} {a : PyStmt} (ha : p a = false) :
    ∀ b : List PyStmt, (b.erase a).filter p = b.filter p := by
  intro b
  induction b with
  | nil => rfl
  | cons x b ih =>
    by_cases hx : x = a
    · subst hx
      rw [List.erase_cons_head]
      simp [List.filter_cons, ha]
    · rw [List.erase_cons_tail (by simpa using hx)]
      simp only [List.filter_cons]
      cases hpx : p x <;> simp [ih]

/-- A member the parents do not match passes unchanged through one
replay of the snapshot. -/
theorem eliminate_pass_cons_of_neg (p : List PyStmt) (a : PyStmt)
    (ha : should_remove_against p a = false) :
    ∀ (s b : List PyStmt), eliminate_pass s p (a :: b) = a :: eliminate_pass s p b := by
  intro s
  induction s with
  | nil => intro b; rfl
  | cons m s ih =>
    intro b
    show eliminate_pass s p
        (if should_remove_against p m then remove_ast_node m (a :: b) else a :: b) =
      a :: eliminate_pass s p (if should_remove_against p m then remove_ast_node m b else b)
    by_cases hm : should_remove_against p m
    · have hma : m ≠ a := by
        intro he
        rw [he, ha] at hm
        exact Bool.false_ne_true hm
      rw [if_pos hm, if_pos hm]
      show eliminate_pass s p ((a :: b).erase m) = a :: eliminate_pass s p (b.erase m)
      rw [List.erase_cons_tail (by simpa using fun he => hma he.symm)]
      exact ih (b.erase m)
    · rw [if_neg hm, if_neg hm]
      exact ih b

/-- One replay of the class snapshot against a single parent removes from
the accumulated body exactly those members the parent matches, provided the
accumulated body is a sublist of the snapshot (which it always is: the body
starts as the snapshot and only shrinks). -/
theorem eliminate_pass_filter (p : List PyStmt) :
    ∀ (s b : List PyStmt), b <+ s →
      eliminate_pass s p b = b.filter fun m => !should_remove_against p m := by
  intro s
  induction s with
  | nil =>
    intro b hb
    rw [List.sublist_nil.1 hb]
    rfl
  | cons a s ih =>
    intro b hb
    rcases List.sublist_cons_iff.1 hb with hbs | ⟨r, rfl, hr⟩
    · show eliminate_pass s p
          (if should_remove_against p a then remove_ast_node a b else b) = _
      by_cases hsa : should_remove_against p a
      · rw [if_pos hsa]
        have h1 : b.erase a <+ s := (List.erase_sublist a b).trans hbs
        rw [show remove_ast_node a b = b.erase a from rfl, ih _ h1]
        exact filter_erase_of_neg (by simp [hsa]) b
      · rw [if_neg hsa]
        exact ih b hbs
    · show eliminate_pass s p
          (if should_remove_against p a then remove_ast_node a (a :: r) else a :: r) = _
      by_cases hsa : should_remove_against p a
      · rw [if_pos hsa]
        rw [show remove_ast_node a (a :: r) = r from by
          simp [remove_ast_node, List.erase_cons_head]]
        rw [ih r hr]
        simp [List.filter_cons, hsa]
      · rw [if_neg hsa]
        rw [eliminate_pass_cons_of_neg p a (by simpa using hsa) s r]
        rw [ih r hr]
        simp [List.filter_cons, hsa]

/-- The whole per-class elimination removes from the class body exactly the
members matched by at least one immediate parent. -/
theorem eliminate_for_class_filter :
    ∀ (pss : List (List PyStmt)) (body b : List PyStmt), b <+ body →
      pss.foldl (fun acc ps => eliminate_pass body ps acc) b =
        b.filter fun m => !(pss.any fun ps => should_remove_against ps m) := by
  intro pss
  induction pss with
  | nil =>
    intro body b _
    simp
  | cons ps pss ih =>
    intro body b hb
    show pss.foldl (fun acc ps => eliminate_pass body ps acc) (eliminate_pass body ps b) = _
    rw [eliminate_pass_filter ps body b hb]
    have hsub : (b.filter fun m => !should_remove_against ps m) <+ body :=
      (List.filter_sublist b).trans hb
    rw [ih body _ hsub]
    rw [List.filter_filter]
    apply List.filter_congr
    intro x _
    simp [Bool.and_comm]

/-- Unfolded removal condition for a method node. -/
theorem should_remove_iff_func {ps : List PyStmt} {m : PyStmt}
    (hf : isFunctionDef m = true) :
    should_remove_against ps m = true ↔
      ∃ n ∈ ps, isFunctionDef n = true ∧ routine_nodes_equal m n = true := by
  simp [should_remove_against, hf, List.any_eq_true, Bool.and_eq_true]

/-- C1 counterexample.  `Base{f(x)}` and `Derived(Base){f(x, y)}` have
different parameter-name sequences, yet `_routine_signatures_equal`
compares them with `zip`, which truncates to the shorter list, so the two
nodes count as equal and `Derived.f` is removed — refuting the claim that a
method is removed only when the parameter-name sequences are identical. -/
theorem c1_counterexample :
    routine_nodes_equal
        (PyStmt.functionDef "f" ⟨["x", "y"], none, none, []⟩ (some "doc"))
        (PyStmt.functionDef "f" ⟨["x"], none, none, []⟩ (some "doc")) = true ∧
      (["x", "y"] : List String) ≠ ["x"] ∧
      remove_redundant_members_from_subclasses
          [{ cid := 0, bases := [],
             body := [PyStmt.functionDef "f" ⟨["x"], none, none, []⟩ (some "doc")] },
           { cid := 1, bases := [0],
             body := [PyStmt.functionDef "f" ⟨["x", "y"], none, none, []⟩ (some "doc")] }]
          (fun _ => []) =
        [{ cid := 0, bases := [],
           body := [PyStmt.functionDef "f" ⟨["x"], none, none, []⟩ (some "doc")] },
         { cid := 1, bases := [0], body := [] }] :=
  ⟨rfl, by decide, by decide⟩

/-- C1 amended.  For every class declared in the processed namespace and
its list of immediate ancestors, a method node of the class's
pre-elimination body is removed if and only if some immediate ancestor's
pre-elimination member list contains a method node with the same name,
parameter names that agree position-wise on the common prefix of the two
parameter lists (Python `zip` semantics), identical variadic and
keyword-catch-all markers, default names agreeing likewise on the common
prefix, and identical documentation text; every class of the namespace ends
up in the pass result with exactly that filtered body. -/
theorem c1_redundant_method_removal (classes : List PyClassDecl)
    (extBody : Nat → List PyStmt) (c : PyClassDecl) (m : PyStmt)
    (hc : c ∈ classes) (hm : m ∈ c.body) (hf : isFunctionDef m = true) :
    ({ c with body := new_class_body classes extBody c } ∈
        remove_redundant_members_from_subclasses classes extBody) ∧
      (m ∉ new_class_body classes extBody c ↔
        ∃ p ∈ c.bases, ∃ n ∈ parent_snapshot classes extBody p,
          isFunctionDef n = true ∧ routine_nodes_equal m n = true) := by
  constructor
  · exact List.mem_map_of_mem _ hc
  · have hfc : new_class_body classes extBody c =
        c.body.filter fun x =>
          !((c.bases.map (parent_snapshot classes extBody)).any
            fun ps => should_remove_against ps x) :=
      eliminate_for_class_filter _ _ _ (List.Sublist.refl _)
    rw [hfc]
    have hmem : m ∈ (c.body.filter fun x =>
        !((c.bases.map (parent_snapshot classes extBody)).any
          fun ps => should_remove_against ps x)) ↔
        ((c.bases.map (parent_snapshot classes extBody)).any
          fun ps => should_remove_against ps m) = false := by
      rw [List.mem_filter]
      constructor
      · intro h
        simpa using h.2
      · intro h
        exact ⟨hm, by simp [h]⟩
    constructor
    · intro hnot
      have hany : ((c.bases.map (parent_snapshot classes extBody)).any
          fun ps => should_remove_against ps m) = true := by
        by_contra hfalse
        exact hnot (hmem.2 (Bool.eq_false_iff.2 hfalse))
      rcases List.any_eq_true.1 hany with ⟨ps, hps, hs⟩
      rcases List.mem_map.1 hps with ⟨pb, hpb, rfl⟩
      rcases (should_remove_iff_func hf).1 hs with ⟨n, hn, hfn, he⟩
      exact ⟨pb, hpb, n, hn, hfn, he⟩
    · rintro ⟨pb, hpb, n, hn, hfn, he⟩ hmemf
      have hany : ((c.bases.map (parent_snapshot classes extBody)).any
          fun ps => should_remove_against ps m) = true :=
        List.any_eq_true.2 ⟨parent_snapshot classes extBody pb,
          List.mem_map_of_mem _ hpb, (should_remove_iff_func hf).2 ⟨n, hn, hfn, he⟩⟩
      rw [hmem.1 hmemf] at hany
      exact Bool.false_ne_true hany

theorem c1_redundant_method_removal_witness :
    (PyStmt.functionDef "f" ⟨["self", "x"], none, none, []⟩ (some "doc") ∉
        new_class_body
          [{ cid := 0, bases := [],
             body := [PyStmt.functionDef "f" ⟨["self", "x"], none, none, []⟩ (some "doc"),
                      PyStmt.functionDef "g" ⟨["self"], none, none, []⟩ (some "gdoc")] },
           { cid := 1, bases := [0],
             body := [PyStmt.functionDef "f" ⟨["self", "x"], none, none, []⟩ (some "doc"),
                      PyStmt.functionDef "g" ⟨["self"], none, none, []⟩ (some "other")] }]
          (fun _ => [])
          { cid := 1, bases := [0],
            body := [PyStmt.functionDef "f" ⟨["self", "x"], none, none, []⟩ (some "doc"),
                     PyStmt.functionDef "g" ⟨["self"], none, none, []⟩ (some "other")] }) ∧
      (PyStmt.functionDef "g" ⟨["self"], none, none, []⟩ (some "other") ∈
        new_class_body
          [{ cid := 0, bases := [],
             body := [PyStmt.functionDef "f" ⟨["self", "x"], none, none, []⟩ (some "doc"),
                      PyStmt.functionDef "g" ⟨["self"], none, none, []⟩ (some "gdoc")] },
           { cid := 1, bases := [0],
             body := [PyStmt.functionDef "f" ⟨["self", "x"], none, none, []⟩ (some "doc"),
                      PyStmt.functionDef "g" ⟨["self"], none, none, []⟩ (some "other")] }]
          (fun _ => [])
          { cid := 1, bases := [0],
            body := [PyStmt.functionDef "f" ⟨["self", "x"], none, none, []⟩ (some "doc"),
                     PyStmt.functionDef "g" ⟨["self"], none, none, []⟩ (some "other")] }) := by
  constructor
  · exact (c1_redundant_method_removal _ (fun _ => []) _ _ (by decide) (by decide)
      (by decide)).2.mpr (by decide)
  · by_contra hnot
    have h := (c1_redundant_method_removal _ (fun _ => []) _ _ (by decide) (by decide)
      (by decide)).2.mp hnot
    revert h
    decide

end PypredefGen


namespace PypredefGen

/-! ## Claim C6: class-level assignment relocation -/

/-- Deleting at successor indices skips the head. -/
theorem del_idxs_shift {α : Type} (js : List Nat) :
    ∀ (t : List α) (x : α), del_idxs (x :: t) (js.map (· + 1)) = x :: del_idxs t js := by
  induction js with
  | nil => intro t x; rfl
  | cons j js ih =>
    intro t x
    show del_idxs ((x :: t).eraseIdx (j + 1)) (js.map (· + 1)) =
      x :: del_idxs (t.eraseIdx j) js
    rw [List.eraseIdx_cons_succ]
    exact ih (t.eraseIdx j) x

/-- Head recurrence for the assignment/index collection. -/
theorem assign_nodes_and_indices_cons (x : PyStmt) (body : List PyStmt) :
    assign_nodes_and_indices (x :: body) =
      (if isAssign x then [(x, 0)] else [])
        ++ (assign_nodes_and_indices body).map fun q => (q.1, q.2 + 1) := by
  cases hx : isAssign x <;>
    simp [assign_nodes_and_indices, List.enum_cons', List.filter_cons, hx,
      List.filter_map, List.map_map, Function.comp, Prod.map] <;> rfl

/-- The collected nodes are the `Assign` nodes in order. -/
theorem assign_nodes_and_indices_fst (body : List PyStmt) :
    (assign_nodes_and_indices body).map Prod.fst = body.filter isAssign := by
  induction body with
  | nil => rfl
  | cons x body ih =>
    rw [assign_nodes_and_indices_cons, List.map_append, List.map_map]
    rw [show (Prod.fst ∘ fun q : PyStmt × Nat => (q.1, q.2 + 1)) = Prod.fst from rfl, ih]
    rw [List.filter_cons]
    cases hx : isAssign x <;> simp [hx]

/-- The recorded indices, shifted under a new head. -/
theorem assign_nodes_and_indices_snd (x : PyStmt) (body : List PyStmt) :
    (assign_nodes_and_indices (x :: body)).map Prod.snd =
      (if isAssign x then [0] else [])
        ++ ((assign_nodes_and_indices body).map Prod.snd).map (· + 1) := by
  rw [assign_nodes_and_indices_cons, List.map_append, List.map_map, List.map_map]
  cases hx : isAssign x <;> simp

/-- Deleting the recorded indices (highest first) removes exactly the
`Assign` nodes. -/
theorem del_idxs_assign (body : List PyStmt) :
    del_idxs body (((assign_nodes_and_indices body).map Prod.snd).reverse) =
      body.filter fun m => !isAssign m := by
  induction body with
  | nil => rfl
  | cons x body ih =>
    rw [assign_nodes_and_indices_snd]
    cases hx : isAssign x with
    | false =>
      simp only [hx, Bool.false_eq_true, if_neg, not_false_eq_true, List.nil_append]
      rw [← List.map_reverse, del_idxs_shift, ih]
      simp [hx]
    | true =>
      simp only [hx, if_pos, List.singleton_append]
      rw [List.reverse_cons]
      show List.foldl (fun b i => b.eraseIdx i) (x :: body)
          ((((assign_nodes_and_indices body).map Prod.snd).map (· + 1)).reverse ++ [0]) = _
      rw [List.foldl_append]
      rw [show List.foldl (fun b i => b.eraseIdx i) (x :: body)
            ((((assign_nodes_and_indices body).map Prod.snd).map (· + 1)).reverse) =
          del_idxs (x :: body)
            ((((assign_nodes_and_indices body).map Prod.snd).map (· + 1)).reverse)
        from rfl]
      rw [← List.map_reverse, del_idxs_shift, ih]
      simp [hx]

/-- Repeated `list.insert` at one fixed valid position splices the inserted
nodes, reversed, at that position. -/
theorem pyInsert_fold (k : Nat) :
    ∀ (ws b : List PyStmt), k ≤ b.length →
      ws.foldl (fun acc n => pyInsert acc k n) b = b.take k ++ ws.reverse ++ b.drop k := by
  intro ws
  induction ws with
  | nil =>
    intro b _
    simp
  | cons w ws ih =>
    intro b hk
    have hlen : (b.take k).length = k := by
      rw [List.length_take]
      exact Nat.min_eq_left hk
    have hk2 : k ≤ (pyInsert b k w).length := by
      show k ≤ (b.take k ++ w :: b.drop k).length
      rw [List.length_append, hlen]
      exact Nat.le_add_right k _
    show ws.foldl (fun acc n => pyInsert acc k n) (pyInsert b k w) = _
    rw [ih (pyInsert b k w) hk2]
    show (b.take k ++ w :: b.drop k).take k ++ ws.reverse
        ++ (b.take k ++ w :: b.drop k).drop k = _
    rw [List.take_left' hlen, List.drop_left' hlen, List.reverse_cons]
    simp

/-- C6.  Within one class body the cosmetic pass removes every `Assign`
node and reinserts all of them, in their original relative order,
immediately before the first `FunctionDef` of the remaining body (at its
end when it holds no `FunctionDef`, since `findIdx` then returns the
length); in particular `[assign x, method f, assign y]` becomes
`[assign x, assign y, method f]`. -/
theorem c6_move_class_assignments :
    (∀ body : List PyStmt,
      move_vars_in_class_body body =
        (body.filter fun m => !isAssign m).take
            ((body.filter fun m => !isAssign m).findIdx isFunctionDef)
          ++ body.filter isAssign
          ++ (body.filter fun m => !isAssign m).drop
            ((body.filter fun m => !isAssign m).findIdx isFunctionDef)) ∧
      move_vars_in_class_body
          [PyStmt.assign "x" "int",
           PyStmt.functionDef "f" ⟨["self"], none, none, []⟩ none,
           PyStmt.assign "y" "str"] =
        [PyStmt.assign "x" "int", PyStmt.assign "y" "str",
         PyStmt.functionDef "f" ⟨["self"], none, none, []⟩ none] := by
  constructor
  · intro body
    show ((assign_nodes_and_indices body).map Prod.fst).reverse.foldl
        (fun b n =>
          pyInsert b
            ((del_idxs body (((assign_nodes_and_indices body).map Prod.snd).reverse)).findIdx
              isFunctionDef) n)
        (del_idxs body (((assign_nodes_and_indices body).map Prod.snd).reverse)) = _
    rw [del_idxs_assign body]
    rw [pyInsert_fold _ _ _ (List.findIdx_le_length isFunctionDef)]
    rw [List.reverse_reverse, assign_nodes_and_indices_fst]
  · decide

end PypredefGen

namespace PypredefGen

/-! ## Claim C3: import deduplication -/

/-- Membership in the surviving aliases of one `Import` node. -/
theorem mem_dedupKeep {seen : List String} {x : String} :
    ∀ {ns : List String}, x ∈ dedupKeep seen ns ↔ x ∈ ns ∧ x ∉ seen := by
  intro ns
  induction ns with
  | nil => simp [dedupKeep]
  | cons n rest ih =>
    show x ∈ (if n ∈ seen ∨ n ∈ rest then dedupKeep seen rest
        else n :: dedupKeep seen rest) ↔ _
    by_cases h : n ∈ seen ∨ n ∈ rest
    · rw [if_pos h]
      rw [ih]
      constructor
      · rintro ⟨hx, hs⟩
        exact ⟨List.mem_cons_of_mem _ hx, hs⟩
      · rintro ⟨hx, hs⟩
        rcases List.mem_cons.1 hx with rfl | hx
        · rcases h with h | h
          · exact absurd h hs
          · exact ⟨h, hs⟩
        · exact ⟨hx, hs⟩
    · rw [if_neg h]
      push_neg at h
      constructor
      · intro hx
        rcases List.mem_cons.1 hx with rfl | hx
        · exact ⟨List.mem_cons_self _ _, h.1⟩
        · rcases ih.1 hx with ⟨h1, h2⟩
          exact ⟨List.mem_cons_of_mem _ h1, h2⟩
      · rintro ⟨hx, hs⟩
        rcases List.mem_cons.1 hx with rfl | hx
        · exact List.mem_cons_self _ _
        · exact List.mem_cons_of_mem _ (ih.2 ⟨hx, hs⟩)

/-- The surviving aliases are pairwise distinct. -/
theorem nodup_dedupKeep (seen : List String) :
    ∀ ns : List String, (dedupKeep seen ns).Nodup := by
  intro ns
  induction ns with
  | nil => exact List.nodup_nil
  | cons n rest ih =>
    show (if n ∈ seen ∨ n ∈ rest then dedupKeep seen rest
        else n :: dedupKeep seen rest).Nodup
    by_cases h : n ∈ seen ∨ n ∈ rest
    · rw [if_pos h]; exact ih
    · rw [if_neg h]
      push_neg at h
      refine List.Nodup.cons ?_ ih
      intro hmem
      exact h.2 (mem_dedupKeep.1 hmem).1

/-- The alias loop returns the surviving aliases and prepends exactly them
to the seen set. -/
theorem dedupAliases_eq (seen : List String) :
    ∀ ns : List String,
      dedupAliases seen ns = (dedupKeep seen ns, dedupKeep seen ns ++ seen) := by
  intro ns
  induction ns with
  | nil => rfl
  | cons n rest ih =>
    rw [dedupAliases, ih]
    show (if n ∈ dedupKeep seen rest ++ seen then
        (dedupKeep seen rest, dedupKeep seen rest ++ seen)
      else (n :: dedupKeep seen rest, n :: (dedupKeep seen rest ++ seen))) = _
    by_cases h : n ∈ seen ∨ n ∈ rest
    · have hin : n ∈ dedupKeep seen rest ++ seen := by
        rcases h with h | h
        · exact List.mem_append_right _ h
        · by_cases hs : n ∈ seen
          · exact List.mem_append_right _ hs
          · exact List.mem_append_left _ (mem_dedupKeep.2 ⟨h, hs⟩)
      rw [if_pos hin]
      rw [show dedupKeep seen (n :: rest) = dedupKeep seen rest from by
        show (if n ∈ seen ∨ n ∈ rest then _ else _) = _
        rw [if_pos h]]
    · have hnin : n ∉ dedupKeep seen rest ++ seen := by
        intro hmem
        push_neg at h
        rcases List.mem_append.1 hmem with hmem | hmem
        · exact h.2 (mem_dedupKeep.1 hmem).1
        · exact h.1 hmem
      rw [if_neg hnin]
      rw [show dedupKeep seen (n :: rest) = n :: dedupKeep seen rest from by
        show (if n ∈ seen ∨ n ∈ rest then _ else _) = _
        rw [if_neg h]]
      rfl

/-- A duplicate-free alias list disjoint from the seen set survives
unchanged. -/
theorem dedupKeep_of_clean (seen : List String) :
    ∀ ns : List String, (∀ x ∈ ns, x ∉ seen) → ns.Nodup → dedupKeep seen ns = ns := by
  intro ns
  induction ns with
  | nil => intro _ _; rfl
  | cons n rest ih =>
    intro hcl hnd
    show (if n ∈ seen ∨ n ∈ rest then _ else _) = _
    rw [if_neg ?hneg]
    case hneg =>
      rintro (h | h)
      · exact hcl n (List.mem_cons_self _ _) h
      · exact (List.nodup_cons.1 hnd).1 h
    rw [ih (fun x hx => hcl x (List.mem_cons_of_mem _ hx)) (List.nodup_cons.1 hnd).2]

/-- The seen set after processing a subtree holds exactly the names kept in
that subtree, prepended to the incoming seen set. -/
theorem dedupList_snd (seen : List String) (b : List PyTree) :
    (dedupList seen b).2 = collectNames (dedupList seen b).1 ++ seen := by
  induction seen, b using dedupList.induct with
  | case1 seen => simp [dedupList, collectNames]
  | case2 seen ns rest ns2 seen2 heq rest2 seen3 heq2 ih =>
    rw [dedupAliases_eq] at heq
    cases heq
    rw [heq2] at ih
    simp only [dedupList, dedupAliases_eq, heq2]
    by_cases he : (dedupKeep seen ns).isEmpty
    · have he2 : dedupKeep seen ns = [] := List.isEmpty_iff.1 he
      rw [he2] at ih ⊢
      simpa using ih
    · simp only [he, Bool.false_eq_true, if_neg, not_false_eq_true]
      show seen3 = collectNames (PyTree.importT (dedupKeep seen ns) :: rest2) ++ seen
      rw [show collectNames (PyTree.importT (dedupKeep seen ns) :: rest2) =
        collectNames rest2 ++ dedupKeep seen ns from by rw [collectNames]]
      rw [List.append_assoc]
      simpa using ih
  | case3 seen n bs body rest body2 seen2 heq rest2 seen3 heq2 ih1 ih2 =>
    rw [heq] at ih1
    rw [heq2] at ih2
    simp only [dedupList, heq, heq2]
    show seen3 = collectNames (PyTree.classT n bs body2 :: rest2) ++ seen
    rw [show collectNames (PyTree.classT n bs body2 :: rest2) =
      collectNames rest2 ++ collectNames body2 from by rw [collectNames]]
    rw [List.append_assoc, ← ih1]
    simpa using ih2
  | case4 seen n a body rest body2 seen2 heq rest2 seen3 heq2 ih1 ih2 =>
    rw [heq] at ih1
    rw [heq2] at ih2
    simp only [dedupList, heq, heq2]
    show seen3 = collectNames (PyTree.funcT n a body2 :: rest2) ++ seen
    rw [show collectNames (PyTree.funcT n a body2 :: rest2) =
      collectNames rest2 ++ collectNames body2 from by rw [collectNames]]
    rw [List.append_assoc, ← ih1]
    simpa using ih2
  | case5 seen x rest h1 h2 h3 rest2 seen2 heq ih =>
    rw [heq] at ih
    cases x with
    | importT ns => exact absurd rfl (h1 ns)
    | classT n bs body => exact absurd rfl (h2 n bs body)
    | funcT n a body => exact absurd rfl (h3 n a body)
    | assignT t v =>
      simp only [dedupList, heq]
      show seen2 = collectNames (PyTree.assignT t v :: rest2) ++ seen
      rw [show collectNames (PyTree.assignT t v :: rest2) = collectNames rest2 from by
        simp [collectNames]]
      simpa using ih
    | exprT s =>
      simp only [dedupList, heq]
      show seen2 = collectNames (PyTree.exprT s :: rest2) ++ seen
      rw [show collectNames (PyTree.exprT s :: rest2) = collectNames rest2 from by
        simp [collectNames]]
      simpa using ih
    | passT =>
      simp only [dedupList, heq]
      show seen2 = collectNames (PyTree.passT :: rest2) ++ seen
      rw [show collectNames (PyTree.passT :: rest2) = collectNames rest2 from by
        simp [collectNames]]
      simpa using ih

end PypredefGen

namespace PypredefGen

/-- The deduplicator is idempotent relative to any starting seen set. -/
theorem dedupList_idem (seen : List String) (b : List PyTree) :
    dedupList seen (dedupList seen b).1 = dedupList seen b := by
  induction seen, b using dedupList.induct with
  | case1 seen => simp [dedupList]
  | case2 seen ns rest ns2 seen2 heq rest2 seen3 heq2 ih =>
    rw [dedupAliases_eq] at heq
    cases heq
    rw [heq2] at ih
    simp only [dedupList, dedupAliases_eq, heq2]
    by_cases he : (dedupKeep seen ns).isEmpty
    · have he2 : dedupKeep seen ns = [] := List.isEmpty_iff.1 he
      simp only [he, if_pos]
      rw [he2] at ih
      simpa using ih
    · simp only [he, Bool.false_eq_true, if_neg, not_false_eq_true]
      have hclean : dedupKeep seen (dedupKeep seen ns) = dedupKeep seen ns :=
        dedupKeep_of_clean seen _ (fun x hx => (mem_dedupKeep.1 hx).2)
          (nodup_dedupKeep seen ns)
      simp only [dedupList, dedupAliases_eq, hclean, ih]
      simp [he]
  | case3 seen n bs body rest body2 seen2 heq rest2 seen3 heq2 ih1 ih2 =>
    rw [heq] at ih1
    rw [heq2] at ih2
    simp only [dedupList, heq, heq2]
    simp only [dedupList, ih1, ih2]
  | case4 seen n a body rest body2 seen2 heq rest2 seen3 heq2 ih1 ih2 =>
    rw [heq] at ih1
    rw [heq2] at ih2
    simp only [dedupList, heq, heq2]
    simp only [dedupList, ih1, ih2]
  | case5 seen x rest h1 h2 h3 rest2 seen2 heq ih =>
    rw [heq] at ih
    cases x with
    | importT ns => exact absurd rfl (h1 ns)
    | classT n bs body => exact absurd rfl (h2 n bs body)
    | funcT n a body => exact absurd rfl (h3 n a body)
    | assignT t v =>
      simp only [dedupList, heq]
      simp only [dedupList, ih]
    | exprT s =>
      simp only [dedupList, heq]
      simp only [dedupList, ih]
    | passT =>
      simp only [dedupList, heq]
      simp only [dedupList, ih]

end PypredefGen

namespace PypredefGen

/-- C3 counterexample.  `visit_Import` iterates the aliases of one `Import`
node by descending index, so of several equal aliases inside one node the
last survives, not the first: an `Import` node with alias names
`["a", "b", "a"]` is rewritten to `["b", "a"]`, while keeping the first
occurrence of each distinct name would give `["a", "b"]`. -/
theorem c3_counterexample :
    remove_duplicate_imports [PyTree.importT ["a", "b", "a"]] =
        [PyTree.importT ["b", "a"]] ∧
      ([PyTree.importT ["b", "a"]] : List PyTree) ≠ [PyTree.importT ["a", "b"]] := by
  constructor
  · simp [remove_duplicate_imports, dedupList, dedupAliases]
  · simp

/-- C3 amended.  Running the import deduplication pass twice yields the
same tree as running it once; one run keeps, for each distinct dotted name,
its occurrence in the first `Import` node (in depth-first order) that
mentions it — and within that node the last of several equal aliases,
because the alias list is scanned by descending index — and it removes
entirely any `Import` node whose alias list becomes empty.  (For the trees
this program builds, where every `Import` node carries exactly one alias,
the surviving occurrence is exactly the first one.) -/
theorem c3_dedup_spec :
    (∀ b : List PyTree,
      remove_duplicate_imports (remove_duplicate_imports b) =
        remove_duplicate_imports b) ∧
    (∀ (seen ns : List String),
      dedupAliases seen ns = (dedupKeep seen ns, dedupKeep seen ns ++ seen)) ∧
    (∀ (seen : List String) (ns : List String) (rest : List PyTree),
      dedupKeep seen ns = [] →
        dedupList seen (PyTree.importT ns :: rest) = dedupList seen rest) := by
  refine ⟨?_, dedupAliases_eq, ?_⟩
  · intro b
    show (dedupList [] (dedupList [] b).1).1 = _
    rw [dedupList_idem]
    rfl
  · intro seen ns rest h
    rcases hq : dedupList seen rest with ⟨rest2, seen3⟩
    simp [dedupList, dedupAliases_eq, h, hq]

theorem c3_dedup_spec_witness :
    remove_duplicate_imports
        (remove_duplicate_imports [PyTree.importT ["a"], PyTree.importT ["a"]]) =
      remove_duplicate_imports [PyTree.importT ["a"], PyTree.importT ["a"]] ∧
    dedupAliases [] ["a", "b", "a"] = (["b", "a"], ["b", "a"]) ∧
    dedupList ["gimp"] [PyTree.importT ["gimp"], PyTree.passT] =
      dedupList ["gimp"] [PyTree.passT] := by
  refine ⟨c3_dedup_spec.1 _, ?_, c3_dedup_spec.2.2 ["gimp"] ["gimp"] [PyTree.passT] rfl⟩
  have h := c3_dedup_spec.2.1 [] ["a", "b", "a"]
  simpa [dedupKeep] using h

end PypredefGen

namespace PypredefGen

open List

/-! ## Claim C2: hierarchy sequencing -/

/-- Decomposition of an ordered pair inside a list. -/
theorem pair_sublist_decomp {x y : Nat} :
    ∀ {m : List Nat}, [x, y] <+ m → ∃ m₁ m₂, m = m₁ ++ x :: m₂ ∧ y ∈ m₂ := by
  intro m h
  induction m with
  | nil => cases h
  | cons a m ih =>
    rcases List.sublist_cons_iff.1 h with h2 | ⟨r, he, h2⟩
    · rcases ih h2 with ⟨m₁, m₂, rfl, hy⟩
      exact ⟨a :: m₁, m₂, rfl, hy⟩
    · cases he
      exact ⟨[], m, rfl, (List.singleton_sublist.1 h2)⟩

/-- A sublist avoiding the erased element survives the erasure. -/
theorem sublist_erase_of_not_mem {z : Nat} :
    ∀ {s l : List Nat}, z ∉ s → s <+ l → s <+ l.erase z := by
  intro s l hz h
  induction h with
  | slnil => exact List.nil_sublist _
  | @cons l₁ l₂ a h ih =>
    by_cases ha : a = z
    · subst ha
      rw [List.erase_cons_head]
      exact h
    · rw [List.erase_cons_tail (by simpa using ha)]
      exact (ih hz).cons a
  | @cons₂ l₁ l₂ a h ih =>
    have haz : a ≠ z := fun he => hz (he ▸ List.mem_cons_self a l₁)
    rw [List.erase_cons_tail (by simpa using haz)]
    exact (ih (fun hm => hz (List.mem_cons_of_mem a hm))).cons₂ a

theorem mem_moveToEnd {a : Nat} {l : List Nat} (x : Nat) (h : a ∈ l) :
    a ∈ moveToEnd l x := by
  by_cases hax : a = x
  · subst hax
    exact List.mem_append_right _ (List.mem_singleton.2 rfl)
  · exact List.mem_append_left _ ((List.mem_erase_of_ne hax).2 h)

theorem self_mem_moveToEnd (x : Nat) (l : List Nat) : x ∈ moveToEnd l x :=
  List.mem_append_right _ (List.mem_singleton.2 rfl)

theorem mem_of_moveToEnd {a x : Nat} {l : List Nat} (h : a ∈ moveToEnd l x) :
    a ∈ l ∨ a = x := by
  rcases List.mem_append.1 h with h | h
  · exact Or.inl (List.mem_of_mem_erase h)
  · exact Or.inr (List.mem_singleton.1 h)

theorem nodup_moveToEnd {l : List Nat} (x : Nat) (h : l.Nodup) :
    (moveToEnd l x).Nodup := by
  refine List.Nodup.append (h.erase x) (List.nodup_singleton x) ?_
  intro a ha hb
  rw [List.mem_singleton.1 hb] at ha
  exact (h.mem_erase_iff.1 ha).1 rfl

/-- Moving any class other than `x` to the end preserves `x` standing
before `y`. -/
theorem moveStable {x y z : Nat} {l : List Nat} (hz : z ≠ x) (h : [x, y] <+ l) :
    [x, y] <+ moveToEnd l z := by
  by_cases hzy : z = y
  · subst hzy
    have hx : x ∈ l.erase z := by
      refine (List.mem_erase_of_ne hz.symm).2 ?_
      have := h.subset
      exact this (List.mem_cons_self _ _)
    calc [x, z] = [x] ++ [z] := rfl
      _ <+ l.erase z ++ [z] := List.Sublist.append (List.singleton_sublist.2 hx)
        (List.Sublist.refl _)
  · have : [x, y] <+ l.erase z := by
      refine sublist_erase_of_not_mem ?_ h
      intro hmem
      rcases List.mem_cons.1 hmem with he | he
      · exact hz he
      · exact hzy (List.mem_singleton.1 he)
    exact this.trans (List.sublist_append_left _ _)

/-- Moving `y` to the end puts it after any present `x`. -/
theorem moveEst {x y : Nat} {l : List Nat} (hx : x ∈ l) (hxy : x ≠ y) :
    [x, y] <+ moveToEnd l y := by
  calc [x, y] = [x] ++ [y] := rfl
    _ <+ l.erase y ++ [y] :=
      List.Sublist.append (List.singleton_sublist.2 ((List.mem_erase_of_ne hxy).2 hx))
        (List.Sublist.refl _)

end PypredefGen

namespace PypredefGen

open List

theorem processMro_nil (d : List Nat) (l : List Nat) : processMro d l [] = l := rfl

theorem processMro_cons (d : List Nat) (l : List Nat) (c : Nat) (m : List Nat) :
    processMro d l (c :: m) =
      processMro d (if c ∈ d then moveToEnd l c else l) m := by
  show (c :: m).foldl _ l = _
  rw [List.foldl_cons]
  rfl

theorem processMro_append (d : List Nat) (l : List Nat) (m₁ m₂ : List Nat) :
    processMro d l (m₁ ++ m₂) = processMro d (processMro d l m₁) m₂ :=
  List.foldl_append _ _ _ _

theorem mem_processMro {a : Nat} (d : List Nat) :
    ∀ (m : List Nat) {l : List Nat}, a ∈ l → a ∈ processMro d l m := by
  intro m
  induction m with
  | nil => intro l h; exact h
  | cons c m ih =>
    intro l h
    rw [processMro_cons]
    by_cases hc : c ∈ d
    · rw [if_pos hc]
      exact ih (mem_moveToEnd c h)
    · rw [if_neg hc]
      exact ih h

theorem mem_processMro_of_mem {x : Nat} (d : List Nat) :
    ∀ (m : List Nat) (l : List Nat), x ∈ m → x ∈ d → x ∈ processMro d l m := by
  intro m
  induction m with
  | nil => intro l h _; cases h
  | cons c m ih =>
    intro l h hd
    rw [processMro_cons]
    rcases List.mem_cons.1 h with rfl | h
    · rw [if_pos hd]
      exact mem_processMro d m (self_mem_moveToEnd x l)
    · exact ih _ h hd

theorem mem_of_processMro {a : Nat} (d : List Nat) :
    ∀ (m : List Nat) {l : List Nat}, a ∈ processMro d l m → a ∈ l ∨ a ∈ d := by
  intro m
  induction m with
  | nil => intro l h; exact Or.inl h
  | cons c m ih =>
    intro l h
    rw [processMro_cons] at h
    by_cases hc : c ∈ d
    · rw [if_pos hc] at h
      rcases ih h with h2 | h2
      · rcases mem_of_moveToEnd h2 with h3 | rfl
        · exact Or.inl h3
        · exact Or.inr hc
      · exact Or.inr h2
    · rw [if_neg hc] at h
      exact ih h

theorem nodup_processMro (d : List Nat) :
    ∀ (m : List Nat) {l : List Nat}, l.Nodup → (processMro d l m).Nodup := by
  intro m
  induction m with
  | nil => intro l h; exact h
  | cons c m ih =>
    intro l h
    rw [processMro_cons]
    by_cases hc : c ∈ d
    · rw [if_pos hc]
      exact ih (nodup_moveToEnd c h)
    · rw [if_neg hc]
      exact ih h

/-- If no element of the processed sequence is `x`, the pair survives. -/
theorem pres_processMro {x y : Nat} (d : List Nat) :
    ∀ (m : List Nat) {l : List Nat}, x ∉ m → [x, y] <+ l →
      [x, y] <+ processMro d l m := by
  intro m
  induction m with
  | nil => intro l _ h; exact h
  | cons c m ih =>
    intro l hx h
    rw [processMro_cons]
    have hcx : c ≠ x := fun he => hx (he ▸ List.mem_cons_self c m)
    by_cases hc : c ∈ d
    · rw [if_pos hc]
      exact ih (fun hm => hx (List.mem_cons_of_mem c hm)) (moveStable hcx h)
    · rw [if_neg hc]
      exact ih (fun hm => hx (List.mem_cons_of_mem c hm)) h

/-- Processing a duplicate-free sequence that mentions `x` before `y`
(both declared) leaves `x` standing before `y`, whatever the incoming
order. -/
theorem est_processMro {x y : Nat} {d : List Nat} {m : List Nat}
    (hm : [x, y] <+ m) (hnd : m.Nodup) (hx : x ∈ d) (hy : y ∈ d)
    (l : List Nat) : [x, y] <+ processMro d l m := by
  rcases pair_sublist_decomp hm with ⟨m₁, m₂, rfl, hym⟩
  rcases List.append_of_mem hym with ⟨m₂a, m₂b, rfl⟩
  have hnd2 : (x :: (m₂a ++ y :: m₂b)).Nodup := hnd.of_append_right
  have hxm2 : x ∉ m₂a ++ y :: m₂b := (List.nodup_cons.1 hnd2).1
  have hxy : x ≠ y := by
    intro he
    exact hxm2 (he ▸ List.mem_append_right _ (List.mem_cons_self _ _))
  rw [show m₁ ++ x :: (m₂a ++ y :: m₂b) = (m₁ ++ x :: m₂a) ++ y :: m₂b from by simp]
  rw [processMro_append, processMro_cons, if_pos hy]
  have hxin : x ∈ processMro d l (m₁ ++ x :: m₂a) := by
    rw [processMro_append, processMro_cons, if_pos hx]
    exact mem_processMro d m₂a (self_mem_moveToEnd x _)
  refine pres_processMro d m₂b ?_ (moveEst hxin hxy)
  intro hmem
  exact hxm2 (List.mem_append_right _ (List.mem_cons_of_mem _ hmem))

/-- Second-establishment: `y` already collected, `x` declared and moved by
this duplicate-free sequence not mentioning `y`: afterwards `y` stands
before `x`. -/
theorem est2_processMro {x y : Nat} {d : List Nat} {m : List Nat} {l : List Nat}
    (hyl : y ∈ l) (hym : y ∉ m) (hxm : x ∈ m) (hx : x ∈ d) (hxy : x ≠ y)
    (hnd : m.Nodup) : [y, x] <+ processMro d l m := by
  rcases List.append_of_mem hxm with ⟨m₁, m₂, rfl⟩
  have hxm2 : x ∉ m₂ := (List.nodup_cons.1 hnd.of_append_right).1
  rw [processMro_append, processMro_cons, if_pos hx]
  have hyin : y ∈ processMro d l m₁ := mem_processMro d m₁ hyl
  refine pres_processMro d m₂ ?_ (moveEst hyin (Ne.symm hxy))
  intro hm
  exact hym (List.mem_append_right _ (List.mem_cons_of_mem _ hm))

end PypredefGen

namespace PypredefGen

open List

theorem mem_fold {a : Nat} (d : List Nat) :
    ∀ (L : List (List Nat)) {l : List Nat}, a ∈ l →
      a ∈ L.foldl (processMro d) l := by
  intro L
  induction L with
  | nil => intro l h; exact h
  | cons m L ih =>
    intro l h
    exact ih (mem_processMro d m h)

theorem nodup_fold (d : List Nat) :
    ∀ (L : List (List Nat)) {l : List Nat}, l.Nodup →
      (L.foldl (processMro d) l).Nodup := by
  intro L
  induction L with
  | nil => intro l h; exact h
  | cons m L ih =>
    intro l h
    exact ih (nodup_processMro d m h)

theorem subset_fold (d : List Nat) :
    ∀ (L : List (List Nat)) {l : List Nat}, (∀ a ∈ l, a ∈ d) →
      ∀ a ∈ L.foldl (processMro d) l, a ∈ d := by
  intro L
  induction L with
  | nil => intro l h; exact h
  | cons m L ih =>
    intro l h
    refine ih ?_
    intro a ha
    rcases mem_of_processMro d m ha with h2 | h2
    · exact h a h2
    · exact h2

theorem mem_fold_of_mem {x : Nat} (d : List Nat) {L : List (List Nat)}
    {m : List Nat} (hm : m ∈ L) (hx : x ∈ m) (hd : x ∈ d) (l : List Nat) :
    x ∈ L.foldl (processMro d) l := by
  rcases List.append_of_mem hm with ⟨L₁, L₂, rfl⟩
  rw [List.foldl_append, List.foldl_cons]
  exact mem_fold d L₂ (mem_processMro_of_mem d m _ hx hd)

/-- The pair survives a whole run of sequences, provided every sequence
that mentions `x` is duplicate-free and mentions `y` after `x`. -/
theorem pair_fold_pres {x y : Nat} (d : List Nat) (hx : x ∈ d) (hy : y ∈ d) :
    ∀ (L : List (List Nat)) {l : List Nat},
      (∀ m ∈ L, x ∉ m ∨ ([x, y] <+ m ∧ m.Nodup)) →
      [x, y] <+ l → [x, y] <+ L.foldl (processMro d) l := by
  intro L
  induction L with
  | nil => intro l _ h; exact h
  | cons m L ih =>
    intro l hall h
    rw [List.foldl_cons]
    refine ih (fun m2 hm2 => hall m2 (List.mem_cons_of_mem m hm2)) ?_
    rcases hall m (List.mem_cons_self m L) with hxm | ⟨hpair, hnd⟩
    · exact pres_processMro d m hxm h
    · exact est_processMro hpair hnd hx hy l

end PypredefGen

namespace PypredefGen

open List

/-- After the collection fold, a declared ancestor stands after each of its
declared descendants (most-derived first in every linearization). -/
theorem pair_fold_anc {B C : Nat} (body : List BodyItem) (mro : Nat → List Nat)
    (hB : B ∈ classCids body) (hC : C ∈ classCids body)
    (hSelf : ∀ c ∈ classCids body, c ∈ mro c)
    (hmnd : ∀ c ∈ classCids body, (mro c).Nodup)
    (hBC : ∀ c ∈ classCids body, C ∈ mro c → [C, B] <+ mro c) :
    [C, B] <+ (((classCids body).map mro).reverse).foldl
      (processMro (classCids body)) [] := by
  rcases List.append_of_mem hC with ⟨P, S, hps⟩
  have hlist : ((classCids body).map mro).reverse =
      (S.map mro).reverse ++ mro C :: (P.map mro).reverse := by
    rw [hps, List.map_append, List.map_cons, List.reverse_append, List.reverse_cons,
      List.append_assoc, List.singleton_append]
  rw [hlist, List.foldl_append, List.foldl_cons]
  have hCC : [C, B] <+ mro C := hBC C hC (hSelf C hC)
  have hest : [C, B] <+ processMro (classCids body)
      (((S.map mro).reverse).foldl (processMro (classCids body)) []) (mro C) :=
    est_processMro hCC (hmnd C hC) hC hB _
  refine pair_fold_pres (classCids body) hC hB _ ?_ hest
  intro m hm
  rcases List.mem_map.1 (List.mem_reverse.1 hm) with ⟨c, hc, rfl⟩
  have hcc : c ∈ classCids body := by
    rw [hps]
    exact List.mem_append_left _ hc
  by_cases hCm : C ∈ mro c
  · exact Or.inr ⟨hBC c hcc hCm, hmnd c hcc⟩
  · exact Or.inl hCm

/-- After the collection fold, of two classes that are not ancestors of any
declared class but themselves, the later-declared one stands earlier. -/
theorem pair_fold_unrel {X Y : Nat} (body : List BodyItem) (mro : Nat → List Nat)
    (hnd : (classCids body).Nodup)
    (hXY : [X, Y] <+ classCids body)
    (hSelf : ∀ c ∈ classCids body, c ∈ mro c)
    (hmnd : ∀ c ∈ classCids body, (mro c).Nodup)
    (hYanc : ∀ c ∈ classCids body, Y ∈ mro c → c = Y) :
    [Y, X] <+ (((classCids body).map mro).reverse).foldl
      (processMro (classCids body)) [] := by
  rcases pair_sublist_decomp hXY with ⟨P, S, hps, hYS⟩
  have hX : X ∈ classCids body := by
    rw [hps]
    exact List.mem_append_right _ (List.mem_cons_self _ _)
  have hY : Y ∈ classCids body := by
    rw [hps]
    exact List.mem_append_right _ (List.mem_cons_of_mem _ hYS)
  have hndXS : (X :: S).Nodup := by
    rw [hps] at hnd
    exact hnd.of_append_right
  have hXS : X ∉ S := (List.nodup_cons.1 hndXS).1
  have hXneY : X ≠ Y := fun he => hXS (he ▸ hYS)
  have hYnP : Y ∉ P := by
    intro hYP
    rw [hps] at hnd
    exact (List.disjoint_of_nodup_append hnd) hYP (List.mem_cons_of_mem _ hYS)
  have hlist : ((classCids body).map mro).reverse =
      (S.map mro).reverse ++ mro X :: (P.map mro).reverse := by
    rw [hps, List.map_append, List.map_cons, List.reverse_append, List.reverse_cons,
      List.append_assoc, List.singleton_append]
  rw [hlist, List.foldl_append, List.foldl_cons]
  have hYacc : Y ∈ ((S.map mro).reverse).foldl (processMro (classCids body)) [] :=
    mem_fold_of_mem (classCids body)
      (List.mem_reverse.2 (List.mem_map_of_mem mro hYS)) (hSelf Y hY) hY []
  have hYnotmX : Y ∉ mro X := by
    intro hmem
    exact hXneY (hYanc X hX hmem)
  have hest : [Y, X] <+ processMro (classCids body)
      (((S.map mro).reverse).foldl (processMro (classCids body)) []) (mro X) :=
    est2_processMro hYacc hYnotmX (hSelf X hX) hX hXneY.symm.symm (hmnd X hX)
  refine pair_fold_pres (classCids body) hY hX _ ?_ hest
  intro m hm
  rcases List.mem_map.1 (List.mem_reverse.1 hm) with ⟨c, hc, rfl⟩
  have hcc : c ∈ classCids body := by
    rw [hps]
    exact List.mem_append_left _ hc
  left
  intro hmem
  have := hYanc c hcc hmem
  subst this
  exact hYnP hc

end PypredefGen

namespace PypredefGen

open List

theorem classCids_cons_class (c : Nat) (t : List BodyItem) :
    classCids (BodyItem.classItem c :: t) = c :: classCids t := rfl

theorem classCids_cons_other (g : Nat) (t : List BodyItem) :
    classCids (BodyItem.otherItem g :: t) = classCids t := rfl

/-- The class nodes of the body, in order. -/
theorem classCids_filter :
    ∀ body : List BodyItem,
      body.filter isClassItem = (classCids body).map BodyItem.classItem := by
  intro body
  induction body with
  | nil => rfl
  | cons x t ih =>
    cases x with
    | classItem c =>
      rw [classCids_cons_class, List.map_cons, ← ih]
      simp [List.filter_cons, isClassItem]
    | otherItem g =>
      rw [classCids_cons_other, ← ih]
      simp [List.filter_cons, isClassItem]

theorem erase_fold_cons (cs : List Nat) :
    ∀ (t : List BodyItem) (x : BodyItem), (∀ c ∈ cs, x ≠ BodyItem.classItem c) →
      cs.foldl (fun b c => b.erase (BodyItem.classItem c)) (x :: t) =
        x :: cs.foldl (fun b c => b.erase (BodyItem.classItem c)) t := by
  induction cs with
  | nil => intro t x _; rfl
  | cons c cs ih =>
    intro t x hx
    rw [List.foldl_cons, List.foldl_cons]
    rw [List.erase_cons_tail (by simpa using hx c (List.mem_cons_self c cs))]
    exact ih _ x fun c2 hc2 => hx c2 (List.mem_cons_of_mem c hc2)

/-- The removal loop deletes exactly the class nodes, provided the declared
class objects are pairwise distinct. -/
theorem strip_class_nodes_eq_filter :
    ∀ body : List BodyItem, (classCids body).Nodup →
      strip_class_nodes body = body.filter fun b => !isClassItem b := by
  intro body
  induction body with
  | nil => intro _; rfl
  | cons x t ih =>
    intro hnd
    cases x with
    | classItem c =>
      rw [classCids_cons_class] at hnd
      show (c :: classCids t).foldl (fun b c => b.erase (BodyItem.classItem c))
          (BodyItem.classItem c :: t) = _
      rw [List.foldl_cons, List.erase_cons_head]
      rw [show (classCids t).foldl (fun b c => b.erase (BodyItem.classItem c)) t =
        strip_class_nodes t from rfl]
      rw [ih (List.nodup_cons.1 hnd).2]
      simp [List.filter_cons, isClassItem]
    | otherItem g =>
      rw [classCids_cons_other] at hnd
      show (classCids t).foldl (fun b c => b.erase (BodyItem.classItem c))
          (BodyItem.otherItem g :: t) = _
      rw [erase_fold_cons _ _ _ (fun c _ => by simp)]
      rw [show (classCids t).foldl (fun b c => b.erase (BodyItem.classItem c)) t =
        strip_class_nodes t from rfl]
      rw [ih hnd]
      simp [List.filter_cons, isClassItem]

/-- Head recurrence for the recorded class-slot indices. -/
theorem classIndices_cons (x : BodyItem) (t : List BodyItem) :
    classIndices (x :: t) =
      (if isClassItem x then [0] else []) ++ (classIndices t).map (· + 1) := by
  cases hx : isClassItem x <;>
    simp [classIndices, List.enum_cons', List.filter_cons, hx,
      List.filter_map, List.map_map, Function.comp, Prod.map] <;> rfl

theorem classIndices_length :
    ∀ body : List BodyItem, (classIndices body).length = (classCids body).length := by
  intro body
  induction body with
  | nil => rfl
  | cons x t ih =>
    rw [classIndices_cons]
    cases x with
    | classItem c =>
      simp only [isClassItem, if_pos, List.singleton_append, classCids_cons_class]
      simp [ih]
    | otherItem g =>
      simp only [isClassItem, Bool.false_eq_true, if_neg, not_false_eq_true,
        List.nil_append, classCids_cons_other]
      simp [ih]

theorem classIndices_pairwise :
    ∀ body : List BodyItem, (classIndices body).Pairwise (· < ·) := by
  intro body
  induction body with
  | nil => exact List.Pairwise.nil
  | cons x t ih =>
    rw [classIndices_cons]
    have hmap : ((classIndices t).map (· + 1)).Pairwise (· < ·) := by
      refine List.Pairwise.map _ ?_ ih
      intro a b hab
      exact Nat.add_lt_add_right hab 1
    cases hx : isClassItem x
    · simpa using hmap
    · simp only [if_pos, List.singleton_append]
      refine List.Pairwise.cons ?_ hmap
      intro a ha
      rcases List.mem_map.1 ha with ⟨b, _, rfl⟩
      exact Nat.succ_pos b

end PypredefGen

namespace PypredefGen

open List

/-- Reinserting the reordered class nodes at the stored original slots, in
ascending slot order, appends them (in order) to the class-free part as far
as the class/non-class split is concerned. -/
theorem insert_fold_filter :
    ∀ (pairs : List (Nat × Nat)) (acc : List BodyItem),
      (pairs.map Prod.fst).Pairwise (· < ·) →
      (∀ i ∈ pairs.map Prod.fst, ∀ b ∈ acc.drop i, isClassItem b = false) →
      ((pairs.foldl (fun b p => pyInsert b p.1 (BodyItem.classItem p.2)) acc).filter
          isClassItem)
        = acc.filter isClassItem ++ pairs.map fun p => BodyItem.classItem p.2 := by
  intro pairs
  induction pairs with
  | nil =>
    intro acc _ _
    simp
  | cons p rest ih =>
    obtain ⟨i, c⟩ := p
    intro acc hpw hcond
    rw [List.foldl_cons, List.map_cons]
    have hdropi : ∀ b ∈ acc.drop i, isClassItem b = false := hcond i (by simp)
    have hdropfilter : (acc.drop i).filter isClassItem = [] :=
      List.filter_eq_nil_iff.2 fun b hb => by simp [hdropi b hb]
    have hfilter : (pyInsert acc i (BodyItem.classItem c)).filter isClassItem
        = acc.filter isClassItem ++ [BodyItem.classItem c] := by
      show ((acc.take i ++ BodyItem.classItem c :: acc.drop i)).filter isClassItem = _
      rw [List.filter_append, List.filter_cons]
      rw [hdropfilter]
      conv_rhs => rw [← List.take_append_drop i acc, List.filter_append, hdropfilter]
      simp [isClassItem]
    have hpw2 : (rest.map Prod.fst).Pairwise (· < ·) :=
      (List.pairwise_cons.1 hpw).2
    have hgt : ∀ j ∈ rest.map Prod.fst, i < j := (List.pairwise_cons.1 hpw).1
    have hcond2 : ∀ j ∈ rest.map Prod.fst,
        ∀ b ∈ (pyInsert acc i (BodyItem.classItem c)).drop j,
          isClassItem b = false := by
      intro j hj b hb
      have hij : i < j := hgt j hj
      have hti : (acc.take i).length ≤ i := by
        rw [List.length_take]
        exact Nat.min_le_left _ _
      rw [show pyInsert acc i (BodyItem.classItem c) =
        acc.take i ++ BodyItem.classItem c :: acc.drop i from rfl] at hb
      rw [List.drop_append_eq_append_drop] at hb
      rw [List.drop_eq_nil_of_le (Nat.le_trans hti (Nat.le_of_lt hij))] at hb
      rw [List.nil_append] at hb
      have hpos : 1 ≤ j - (acc.take i).length := by omega
      rw [show j - (acc.take i).length = (j - (acc.take i).length - 1) + 1 by omega] at hb
      rw [List.drop_succ_cons] at hb
      exact hdropi b (List.mem_of_mem_drop hb)
    rw [ih _ hpw2 hcond2, hfilter]
    simp

end PypredefGen

namespace PypredefGen

open List

theorem newClassOrder_length (body : List BodyItem) (mro : Nat → List Nat)
    (hnd : (classCids body).Nodup)
    (hSelf : ∀ c ∈ classCids body, c ∈ mro c) :
    (newClassOrder body mro).length = (classCids body).length := by
  have hnodupF : ((((classCids body).map mro).reverse).foldl
      (processMro (classCids body)) []).Nodup :=
    nodup_fold _ _ List.nodup_nil
  have hsub : ∀ a ∈ (((classCids body).map mro).reverse).foldl
      (processMro (classCids body)) [], a ∈ classCids body :=
    subset_fold _ _ (by simp)
  have hmem : ∀ c ∈ classCids body, c ∈ (((classCids body).map mro).reverse).foldl
      (processMro (classCids body)) [] := by
    intro c hc
    exact mem_fold_of_mem _ (List.mem_reverse.2 (List.mem_map_of_mem mro hc))
      (hSelf c hc) hc []
  have hfs : ((((classCids body).map mro).reverse).foldl
      (processMro (classCids body)) []).toFinset = (classCids body).toFinset := by
    ext a
    simp only [List.mem_toFinset]
    exact ⟨fun h => hsub a h, fun h => hmem a h⟩
  have h1 := List.toFinset_card_of_nodup hnodupF
  have h2 := List.toFinset_card_of_nodup hnd
  show ((((classCids body).map mro).reverse).foldl
      (processMro (classCids body)) []).reverse.length = _
  rw [List.length_reverse, ← h1, ← h2, hfs]

/-- The class nodes of the resequenced body are exactly the reordered
classes, in order. -/
theorem sorted_filter (body : List BodyItem) (mro : Nat → List Nat)
    (hnd : (classCids body).Nodup)
    (hSelf : ∀ c ∈ classCids body, c ∈ mro c) :
    (sort_classes_by_hierarchy body mro).filter isClassItem =
      (newClassOrder body mro).map BodyItem.classItem := by
  have hlen : (classIndices body).length = (newClassOrder body mro).length := by
    rw [classIndices_length, newClassOrder_length body mro hnd hSelf]
  have hfst : (((classIndices body).zip (newClassOrder body mro)).map Prod.fst)
      = classIndices body :=
    List.map_fst_zip _ _ (Nat.le_of_eq hlen)
  have hsnd : (((classIndices body).zip (newClassOrder body mro)).map Prod.snd)
      = newClassOrder body mro :=
    List.map_snd_zip _ _ (Nat.le_of_eq hlen.symm)
  have hstrip := strip_class_nodes_eq_filter body hnd
  have hstripdrop : ∀ i ∈ ((classIndices body).zip (newClassOrder body mro)).map
      Prod.fst, ∀ b ∈ (strip_class_nodes body).drop i, isClassItem b = false := by
    intro i _ b hb
    have hbmem : b ∈ strip_class_nodes body := List.mem_of_mem_drop hb
    rw [hstrip] at hbmem
    have := List.mem_filter.1 hbmem
    simpa using this.2
  have hins := insert_fold_filter ((classIndices body).zip (newClassOrder body mro))
    (strip_class_nodes body) (by rw [hfst]; exact classIndices_pairwise body)
    hstripdrop
  show ((((classIndices body).zip (newClassOrder body mro)).foldl
      (fun b p => pyInsert b p.1 (BodyItem.classItem p.2))
      (strip_class_nodes body)).filter isClassItem) = _
  rw [hins, hstrip]
  rw [show ((body.filter fun b => !isClassItem b).filter isClassItem) = [] from
    List.filter_eq_nil_iff.2 fun b hb => by
      have := List.mem_filter.1 hb
      simp at this
      simp [this.2]]
  rw [List.nil_append]
  rw [show (((classIndices body).zip (newClassOrder body mro)).map
      fun p => BodyItem.classItem p.2) =
    ((((classIndices body).zip (newClassOrder body mro)).map Prod.snd).map
      BodyItem.classItem) from by rw [List.map_map]; rfl]
  rw [hsnd]

end PypredefGen

namespace PypredefGen

open List

/-- When the second element occurs exactly once, standing somewhere before
it means the first index is strictly smaller. -/
theorem pair_indexOf {x y : BodyItem} :
    ∀ {l : List BodyItem}, [x, y] <+ l → l.count y = 1 →
      l.indexOf x < l.indexOf y := by
  intro l h hc
  induction l with
  | nil => cases h
  | cons a t ih =>
    have hxy : x ≠ y := by
      intro he
      subst he
      have h2 : List.count x [x, x] ≤ List.count x (a :: t) := h.count_le x
      simp at h2
      omega
    rcases List.sublist_cons_iff.1 h with h2 | ⟨r, he, h2⟩
    · have hay : a ≠ y := by
        intro he
        have hyt : y ∈ t := h2.subset (by simp)
        have hcp : 0 < t.count y := List.count_pos_iff.2 hyt
        rw [he, List.count_cons_self] at hc
        omega
      by_cases hax : a = x
      · subst hax
        rw [List.indexOf_cons_self]
        rw [List.indexOf_cons_ne _ hay]
        exact Nat.succ_pos _
      · rw [List.indexOf_cons_ne _ hax, List.indexOf_cons_ne _ hay]
        have hct : t.count y = 1 := by
          rw [List.count_cons_of_ne (fun he => hay he.symm)] at hc
          exact hc
        exact Nat.succ_lt_succ (ih h2 hct)
    · cases he
      rw [List.indexOf_cons_self, List.indexOf_cons_ne _ hxy]
      exact Nat.succ_pos _

/-- A pair in the reordered class sequence turns into a strict index
comparison in the resequenced module body. -/
theorem pair_sorted_indexOf (body : List BodyItem) (mro : Nat → List Nat)
    (hnd : (classCids body).Nodup)
    (hSelf : ∀ c ∈ classCids body, c ∈ mro c) {x y : Nat}
    (hpair : [x, y] <+ newClassOrder body mro) :
    (sort_classes_by_hierarchy body mro).indexOf (BodyItem.classItem x) <
      (sort_classes_by_hierarchy body mro).indexOf (BodyItem.classItem y) := by
  have hfil := sorted_filter body mro hnd hSelf
  have hmap : [BodyItem.classItem x, BodyItem.classItem y] <+
      (newClassOrder body mro).map BodyItem.classItem := by
    have h2 := hpair.map BodyItem.classItem
    simpa using h2
  have hsub : [BodyItem.classItem x, BodyItem.classItem y] <+
      sort_classes_by_hierarchy body mro := by
    rw [← hfil] at hmap
    exact hmap.trans (List.filter_sublist _)
  have hy : y ∈ newClassOrder body mro := hpair.subset (by simp)
  have hnodupNew : (newClassOrder body mro).Nodup := by
    show ((((classCids body).map mro).reverse).foldl
      (processMro (classCids body)) []).reverse.Nodup
    rw [List.nodup_reverse]
    exact nodup_fold _ _ List.nodup_nil
  have hcount : (sort_classes_by_hierarchy body mro).count (BodyItem.classItem y)
      = 1 := by
    rw [← List.count_filter (p := isClassItem)
      (show isClassItem (BodyItem.classItem y) = true from rfl), hfil]
    rw [List.count_map_of_injective _ BodyItem.classItem
      (fun a b hab => by injection hab) y]
    exact List.count_eq_one_of_mem hnodupNew hy
  exact pair_indexOf hsub hcount

end PypredefGen

namespace PypredefGen

open List

/-- C2 counterexample.  Namespace `[D, X, Y]` (discovery order) where `D`
derives from `Y` while `X` and `Y` are unrelated old-style classes with no
ancestors at all besides themselves: the sequencing pass emits `Y` before
`X`, although `X` was declared before `Y` and the two share no ancestors —
refuting the claim that top-level classes with no shared ancestors keep
their original relative order.  (Identities: `D = 10`, `X = 11`,
`Y = 12`.) -/
theorem c2_counterexample :
    sort_classes_by_hierarchy
        [BodyItem.classItem 10, BodyItem.classItem 11, BodyItem.classItem 12]
        (fun c => if c = 10 then [10, 12] else if c = 11 then [11]
          else if c = 12 then [12] else []) =
      [BodyItem.classItem 12, BodyItem.classItem 10, BodyItem.classItem 11] ∧
    ([11] : List Nat).inter [12] = [] ∧
    ([BodyItem.classItem 10, BodyItem.classItem 11,
        BodyItem.classItem 12].indexOf (BodyItem.classItem 11) <
      [BodyItem.classItem 10, BodyItem.classItem 11,
        BodyItem.classItem 12].indexOf (BodyItem.classItem 12)) ∧
    ((sort_classes_by_hierarchy
        [BodyItem.classItem 10, BodyItem.classItem 11, BodyItem.classItem 12]
        (fun c => if c = 10 then [10, 12] else if c = 11 then [11]
          else if c = 12 then [12] else [])).indexOf (BodyItem.classItem 12) <
      (sort_classes_by_hierarchy
        [BodyItem.classItem 10, BodyItem.classItem 11, BodyItem.classItem 12]
        (fun c => if c = 10 then [10, 12] else if c = 11 then [11]
          else if c = 12 then [12] else [])).indexOf (BodyItem.classItem 11)) := by
  refine ⟨by decide, by decide, by decide, by decide⟩

/-- C2 amended.  Under the standard linearization laws (every declared
class heads its own duplicate-free linearization, and any linearization
mentioning a class mentions its ancestors after it), for every chain
`A <- B <- C` of classes declared at the top level of one namespace the
resequenced body lists `A` strictly before `B` and `B` strictly before
`C`; and a class `X` declared before a class `Y` keeps its place before
`Y` whenever `Y` is not an ancestor of any other declared class — in
particular classes with no shared ancestors keep their original relative
order unless a class declared earlier inherits from the later one, which
the counterexample shows can reorder them. -/
theorem c2_sort_classes_spec (body : List BodyItem) (mro : Nat → List Nat)
    (hnd : (classCids body).Nodup)
    (hSelf : ∀ c ∈ classCids body, c ∈ mro c)
    (hmnd : ∀ c ∈ classCids body, (mro c).Nodup) :
    (∀ A B C : Nat, A ∈ classCids body → B ∈ classCids body → C ∈ classCids body →
      (∀ c ∈ classCids body, B ∈ mro c → [B, A] <+ mro c) →
      (∀ c ∈ classCids body, C ∈ mro c → [C, B] <+ mro c) →
      (sort_classes_by_hierarchy body mro).indexOf (BodyItem.classItem A) <
          (sort_classes_by_hierarchy body mro).indexOf (BodyItem.classItem B) ∧
        (sort_classes_by_hierarchy body mro).indexOf (BodyItem.classItem B) <
          (sort_classes_by_hierarchy body mro).indexOf (BodyItem.classItem C)) ∧
    (∀ X Y : Nat, [X, Y] <+ classCids body →
      (∀ c ∈ classCids body, Y ∈ mro c → c = Y) →
      (sort_classes_by_hierarchy body mro).indexOf (BodyItem.classItem X) <
        (sort_classes_by_hierarchy body mro).indexOf (BodyItem.classItem Y)) := by
  constructor
  · intro A B C hA hB hC hAB hBC
    constructor
    · have h1 := @pair_fold_anc A B body mro hA hB hSelf hmnd hAB
      have h2 : [A, B] <+ newClassOrder body mro := by
        have h3 := h1.reverse
        simpa [newClassOrder] using h3
      exact pair_sorted_indexOf body mro hnd hSelf h2
    · have h1 := @pair_fold_anc B C body mro hB hC hSelf hmnd hBC
      have h2 : [B, C] <+ newClassOrder body mro := by
        have h3 := h1.reverse
        simpa [newClassOrder] using h3
      exact pair_sorted_indexOf body mro hnd hSelf h2
  · intro X Y hXY hYanc
    have h1 := @pair_fold_unrel X Y body mro hnd hXY hSelf hmnd hYanc
    have h2 : [X, Y] <+ newClassOrder body mro := by
      have h3 := h1.reverse
      simpa [newClassOrder] using h3
    exact pair_sorted_indexOf body mro hnd hSelf h2

theorem c2_sort_classes_spec_witness :
    ((sort_classes_by_hierarchy
        [BodyItem.classItem 0, BodyItem.otherItem 5, BodyItem.classItem 1,
          BodyItem.classItem 2]
        (fun c => if c = 0 then [0] else if c = 1 then [1, 0]
          else if c = 2 then [2, 1, 0] else [])).indexOf (BodyItem.classItem 0) <
      (sort_classes_by_hierarchy
        [BodyItem.classItem 0, BodyItem.otherItem 5, BodyItem.classItem 1,
          BodyItem.classItem 2]
        (fun c => if c = 0 then [0] else if c = 1 then [1, 0]
          else if c = 2 then [2, 1, 0] else [])).indexOf (BodyItem.classItem 1)) ∧
    ((sort_classes_by_hierarchy
        [BodyItem.classItem 0, BodyItem.otherItem 5, BodyItem.classItem 1,
          BodyItem.classItem 2]
        (fun c => if c = 0 then [0] else if c = 1 then [1, 0]
          else if c = 2 then [2, 1, 0] else [])).indexOf (BodyItem.classItem 1) <
      (sort_classes_by_hierarchy
        [BodyItem.classItem 0, BodyItem.otherItem 5, BodyItem.classItem 1,
          BodyItem.classItem 2]
        (fun c => if c = 0 then [0] else if c = 1 then [1, 0]
          else if c = 2 then [2, 1, 0] else [])).indexOf (BodyItem.classItem 2)) := by
  have h := c2_sort_classes_spec
    [BodyItem.classItem 0, BodyItem.otherItem 5, BodyItem.classItem 1,
      BodyItem.classItem 2]
    (fun c => if c = 0 then [0] else if c = 1 then [1, 0]
      else if c = 2 then [2, 1, 0] else [])
    (by decide) (by decide) (by decide)
  exact h.1 0 1 2 (by decide) (by decide) (by decide) (by decide) (by decide)

end PypredefGen
